import Mathlib

/-!
Verification of the HotelGen synthetic-data generator against its design
specification.  The Python source is shallowly embedded: Python floats become
exact rationals, Python ints become `Int`/`Nat`, dictionaries become
association lists (keyed structures), and every pseudo-random draw of the
single `random.Random` stream is supplied by an explicit oracle argument
(a function from a position counter to a value), so that theorems quantify
over all possible random behaviours.  Unbounded `while` loops are embedded
with an explicit fuel parameter returning `Option`/a status flag.
-/

namespace HotelGen

/-! ## Generic helpers: association lists and bounded rounding -/

/-- Lookup in an association list, mirroring a Python dict read `d[k]`
(`none` models a `KeyError`). -/
def lookupA {α β : Type} [DecidableEq α] : List (α × β) → α → Option β
  | [], _ => none
  | q :: tl, k => if q.1 = k then some q.2 else lookupA tl k

/-- Update the value stored at key `k`, mirroring `d[k] = f d[k]` on a dict
whose keys are unique. -/
def updateA {α β : Type} [DecidableEq α] :
    List (α × β) → α → (β → β) → List (α × β)
  | [], _, _ => []
  | q :: tl, k, f =>
    (if q.1 = k then (q.1, f q.2) else q) :: updateA tl k f

theorem lookupA_updateA_self {α β : Type} [DecidableEq α]
    (l : List (α × β)) (k : α) (f : β → β) (v : β) (h : lookupA l k = some v) :
    lookupA (updateA l k f) k = some (f v) := by
  induction l with
  | nil => simp [lookupA] at h
  | cons hd tl ih =>
    by_cases hk : hd.1 = k
    · simp [lookupA, hk] at h
      simp [lookupA, updateA, hk, h]
    · simp [lookupA, hk] at h
      simp [lookupA, updateA, hk, ih h]

theorem lookupA_updateA_ne {α β : Type} [DecidableEq α]
    (l : List (α × β)) (k k' : α) (f : β → β) (h : k ≠ k') :
    lookupA (updateA l k f) k' = lookupA l k' := by
  induction l with
  | nil => simp [lookupA, updateA]
  | cons hd tl ih =>
    by_cases hk : hd.1 = k
    · have hne : ¬ hd.1 = k' := by rw [hk]; exact h
      have hne2 : ¬ k = k' := h
      simp [lookupA, updateA, hk, hne, hne2, ih]
    · simp [lookupA, updateA, hk, ih]

/-- Rounding a rational to the nearest integer.  Python's `round` resolves
exact ties to the even integer; `round` on `ℚ` resolves them upward.  No
theorem below depends on tie behaviour. -/
def pyRound (q : ℚ) : ℤ := round q

theorem pyRound_nonneg {q : ℚ} (h : 0 ≤ q) : 0 ≤ pyRound q := by
  unfold pyRound
  rw [round_eq]
  have : (0 : ℚ) ≤ q + 1 / 2 := by linarith
  exact Int.floor_nonneg.mpr this

/-! ## `normalized_random_bounded` (package `__init__.py`)

The Gaussian draw `np.random.normal(mean, sd)` is supplied by the oracle;
the function clamps the draw to the optional bounds. -/

def normalized_random_bounded (draw : ℚ) (minVal maxVal : Option ℚ) : ℚ :=
  let v := match minVal with
    | some m => max draw m
    | none => draw
  match maxVal with
    | some m => min v m
    | none => v

theorem nrb_ge_min (draw m : ℚ) :
    m ≤ normalized_random_bounded draw (some m) none := by
  simp [normalized_random_bounded]

/-! ## Distribution Allocator (`generators/distribution.py`)

`generate_state_distribution(count, sd, reassignments)` distributes `count`
units over the configured categories.  The category keys never change, so the
evolving dict is embedded as the list of its values, aligned with the weight
list `w` (`data.state_population_ratios.values()` in source order).  Random
`r.choice` picks are `o p % length`; `r.sample(keys, 2)` is one oracle value
encoding an ordered pair of distinct indices. -/

/-- Steps 1–3 of `generate_state_distribution`: scaling factor and the rounded
baseline, with the per-category Gaussian draws (`sd > 0` branch) supplied by
the `noise` oracle and floored at `0` as in the source (`min_val=0.0`). -/
def baselineDistribution (w : List ℚ) (count : ℤ) (sd : ℚ) (noise : ℕ → ℚ) :
    List ℤ :=
  let allMultipliers := w.sum
  let scalingFactor : ℚ := (count : ℚ) / allMultipliers
  if sd ≤ 0 then
    w.map (fun m => pyRound (m * scalingFactor))
  else
    (List.range w.length).map (fun i =>
      pyRound (w.getD i 0 * normalized_random_bounded (noise i) (some 0) none))

/-- Add `δ` to the value at index `i` (`distribution[state] += δ`). -/
def bumpAt (d : List ℤ) (i : ℕ) (δ : ℤ) : List ℤ :=
  d.set i (d.getD i 0 + δ)

theorem bumpAt_length (d : List ℤ) (i : ℕ) (δ : ℤ) :
    (bumpAt d i δ).length = d.length := by
  simp [bumpAt]

theorem bumpAt_sum (d : List ℤ) (i : ℕ) (δ : ℤ) (h : i < d.length) :
    (bumpAt d i δ).sum = d.sum + δ := by
  induction d generalizing i with
  | nil => simp at h
  | cons hd tl ih =>
    cases i with
    | zero => simp [bumpAt]; ring
    | succ n =>
      have hn : n < tl.length := by simpa using h
      have := ih n hn
      simp [bumpAt] at this ⊢
      omega

theorem bumpAt_nonneg (d : List ℤ) (i : ℕ) (δ : ℤ)
    (hd : ∀ x ∈ d, 0 ≤ x) (hδ : 0 ≤ d.getD i 0 + δ) :
    ∀ x ∈ bumpAt d i δ, 0 ≤ x := by
  intro x hx
  rcases List.mem_or_eq_of_mem_set hx with h | h
  · exact hd x h
  · omega

/-- Step 4.1 of `generate_state_distribution`:
`while sum(distribution.values()) < count: distribution[r.choice(keys)] += 1`.
Each iteration raises the total by one, so the loop terminates for every
oracle on a nonempty category table (`addLoop_done` below); the fuel
parameter keeps the recursion structural and `p` is the oracle position. -/
def addLoop (count : ℤ) (o : ℕ → ℕ) :
    ℕ → ℕ → List ℤ → Option (ℕ × List ℤ)
  | fuel, p, d =>
    if ¬ d.sum < count then some (p, d)
    else
      match fuel with
      | 0 => none
      | fuel + 1 => addLoop count o fuel (p + 1) (bumpAt d (o p % d.length) 1)

theorem addLoop_eq (count : ℤ) (o : ℕ → ℕ) (fuel p : ℕ) (d : List ℤ) :
    addLoop count o fuel p d =
      if ¬ d.sum < count then some (p, d)
      else
        match fuel with
        | 0 => none
        | fuel + 1 => addLoop count o fuel (p + 1) (bumpAt d (o p % d.length) 1) := by
  cases fuel <;> rfl

/-- Step 4.2 of `generate_state_distribution`:
`while sum(...) > count: s = r.choice(keys); if distribution[s] > 0: -= 1`.
The pick may repeatedly land on empty categories, so termination is not
guaranteed for every oracle; fuel makes the recursion total. -/
def subLoop (count : ℤ) (o : ℕ → ℕ) :
    ℕ → ℕ → List ℤ → Option (ℕ × List ℤ)
  | fuel, p, d =>
    if ¬ d.sum > count then some (p, d)
    else
      match fuel with
      | 0 => none
      | fuel + 1 =>
        let i := o p % d.length
        if 0 < d.getD i 0 then subLoop count o fuel (p + 1) (bumpAt d i (-1))
        else subLoop count o fuel (p + 1) d

theorem subLoop_eq (count : ℤ) (o : ℕ → ℕ) (fuel p : ℕ) (d : List ℤ) :
    subLoop count o fuel p d =
      if ¬ d.sum > count then some (p, d)
      else
        match fuel with
        | 0 => none
        | fuel + 1 =>
          if 0 < d.getD (o p % d.length) 0 then
            subLoop count o fuel (p + 1) (bumpAt d (o p % d.length) (-1))
          else subLoop count o fuel (p + 1) d := by
  cases fuel <;> rfl

/-- Index pair decoded from one oracle value: the `r.sample(keys, 2)` draw of
step 5.  For `k ≥ 2` categories the value selects an ordered pair of distinct
indices `(sampleFrom, sampleTo)`. -/
def sampleFrom (k v : ℕ) : ℕ := v % (k * (k - 1)) / (k - 1)

def sampleTo (k v : ℕ) : ℕ :=
  let r0 := v % (k * (k - 1)) % (k - 1)
  if r0 < sampleFrom k v then r0 else r0 + 1

theorem sampleFrom_lt (k v : ℕ) (hk : 2 ≤ k) : sampleFrom k v < k := by
  unfold sampleFrom
  have h1 : 0 < k - 1 := by omega
  have h2 : v % (k * (k - 1)) < k * (k - 1) := Nat.mod_lt _ (by positivity)
  have h3 : v % (k * (k - 1)) < (k - 1) * k := by
    rw [Nat.mul_comm (k - 1) k]; exact h2
  exact Nat.div_lt_of_lt_mul h3

theorem sampleTo_lt (k v : ℕ) (hk : 2 ≤ k) : sampleTo k v < k := by
  unfold sampleTo
  have h1 : 0 < k - 1 := by omega
  have h2 : v % (k * (k - 1)) % (k - 1) < k - 1 := Nat.mod_lt _ h1
  by_cases h : v % (k * (k - 1)) % (k - 1) < sampleFrom k v
  · simp only [h, if_true]
    omega
  · simp only [h, if_false]
    omega

theorem sampleTo_ne_sampleFrom (k v : ℕ) : sampleTo k v ≠ sampleFrom k v := by
  unfold sampleTo
  by_cases h : v % (k * (k - 1)) % (k - 1) < sampleFrom k v
  · simp only [h, if_true]
    omega
  · simp only [h, if_false]
    omega

/-- Step 5 of `generate_state_distribution`: `reassignments` iterations, each
an inner `while True` loop that samples two distinct categories and moves one
unit from the first to the second once the first is non-empty.  A sample with
fewer than two categories raises `ValueError`, modelled as `none`. -/
def reassignLoop (o : ℕ → ℕ) :
    ℕ → ℕ → ℕ → List ℤ → Option (List ℤ)
  | _, 0, _, d => some d
  | 0, _ + 1, _, _ => none
  | fuel + 1, n + 1, p, d =>
    if d.length < 2 then none
    else
      let i := sampleFrom d.length (o p)
      let j := sampleTo d.length (o p)
      if 0 < d.getD i 0 then
        reassignLoop o fuel n (p + 1) (bumpAt (bumpAt d i (-1)) j 1)
      else reassignLoop o fuel (n + 1) (p + 1) d

theorem reassignLoop_eq_zero (o : ℕ → ℕ) (fuel p : ℕ) (d : List ℤ) :
    reassignLoop o fuel 0 p d = some d := by
  cases fuel <;> rfl

theorem reassignLoop_eq_succ (o : ℕ → ℕ) (fuel n p : ℕ) (d : List ℤ) :
    reassignLoop o (fuel + 1) (n + 1) p d =
      if d.length < 2 then none
      else
        if 0 < d.getD (sampleFrom d.length (o p)) 0 then
          reassignLoop o fuel n (p + 1)
            (bumpAt (bumpAt d (sampleFrom d.length (o p)) (-1))
              (sampleTo d.length (o p)) 1)
        else reassignLoop o fuel (n + 1) (p + 1) d := rfl

/-- `generate_state_distribution(count, sd, reassignments)`: baseline, then the
two unit-correction loops, then the random reassignments.  Returns the final
per-category values (aligned with `w`), or `none` when fuel runs out — i.e.
when the source loop has not yet exited. -/
def generate_state_distribution (w : List ℚ) (count : ℤ) (sd : ℚ)
    (noise : ℕ → ℚ) (o : ℕ → ℕ) (reassignments : ℕ) (fuel : ℕ) :
    Option (List ℤ) :=
  match addLoop count o fuel 0 (baselineDistribution w count sd noise) with
  | none => none
  | some (p1, d1) =>
    match subLoop count o fuel p1 d1 with
    | none => none
    | some (p2, d2) => reassignLoop o fuel reassignments p2 d2

/-! ### Allocator invariants (claim C1) -/

theorem getD_nonneg {d : List ℤ} (hd : ∀ x ∈ d, 0 ≤ x) (i : ℕ) :
    0 ≤ d.getD i 0 := by
  induction d generalizing i with
  | nil => simp
  | cons hd' tl ih =>
    cases i with
    | zero => exact hd hd' (by simp)
    | succ n =>
      simp only [List.getD_cons_succ]
      exact ih (fun x hx => hd x (by simp [hx])) n

theorem baselineDistribution_length (w : List ℚ) (count : ℤ) (sd : ℚ)
    (noise : ℕ → ℚ) : (baselineDistribution w count sd noise).length = w.length := by
  unfold baselineDistribution
  by_cases h : sd ≤ 0 <;> simp [h]

theorem getD_nonneg_rat {d : List ℚ} (hd : ∀ x ∈ d, 0 ≤ x) (i : ℕ) :
    0 ≤ d.getD i 0 := by
  induction d generalizing i with
  | nil => simp
  | cons hd' tl ih =>
    cases i with
    | zero => exact hd hd' (by simp)
    | succ n =>
      simp only [List.getD_cons_succ]
      exact ih (fun x hx => hd x (by simp [hx])) n

theorem baselineDistribution_nonneg (w : List ℚ) (count : ℤ) (sd : ℚ)
    (noise : ℕ → ℚ) (hw : ∀ x ∈ w, 0 ≤ x) (hc : 0 ≤ count) :
    ∀ x ∈ baselineDistribution w count sd noise, 0 ≤ x := by
  have hwsum : (0 : ℚ) ≤ w.sum := List.sum_nonneg hw
  have hsf : (0 : ℚ) ≤ (count : ℚ) / w.sum := by
    apply div_nonneg _ hwsum
    exact_mod_cast hc
  have hgetD : ∀ i, (0 : ℚ) ≤ w.getD i 0 := getD_nonneg_rat hw
  intro x hx
  unfold baselineDistribution at hx
  by_cases h : sd ≤ 0
  · simp only [h, if_true, List.mem_map] at hx
    obtain ⟨m, hm, rfl⟩ := hx
    exact pyRound_nonneg (mul_nonneg (hw m hm) hsf)
  · simp only [h, if_false, List.mem_map] at hx
    obtain ⟨i, _, rfl⟩ := hx
    apply pyRound_nonneg
    apply mul_nonneg (hgetD i)
    exact le_trans (le_refl 0) (nrb_ge_min (noise i) 0)

/-- Invariants of the unit-add loop: when it exits it preserves length and
non-negativity, and (on a nonempty table) the final total is the old total
pushed up to at least `count`. -/
theorem addLoop_spec (count : ℤ) (o : ℕ → ℕ) :
    ∀ (fuel p : ℕ) (d : List ℤ) (p2 : ℕ) (d2 : List ℤ),
      addLoop count o fuel p d = some (p2, d2) →
      d2.length = d.length ∧
      ((∀ x ∈ d, 0 ≤ x) → ∀ x ∈ d2, 0 ≤ x) ∧
      (d ≠ [] → d2.sum = max d.sum count) := by
  intro fuel
  induction fuel with
  | zero =>
    intro p d p2 d2 h
    rw [addLoop_eq] at h
    by_cases hg : ¬ d.sum < count
    · rw [if_pos hg] at h
      simp only [Option.some.injEq, Prod.mk.injEq] at h
      obtain ⟨rfl, rfl⟩ := h
      refine ⟨rfl, fun hx => hx, fun _ => ?_⟩
      omega
    · rw [if_neg hg] at h
      simp at h
  | succ fuel ih =>
    intro p d p2 d2 h
    rw [addLoop_eq] at h
    by_cases hg : ¬ d.sum < count
    · rw [if_pos hg] at h
      simp only [Option.some.injEq, Prod.mk.injEq] at h
      obtain ⟨rfl, rfl⟩ := h
      refine ⟨rfl, fun hx => hx, fun _ => ?_⟩
      omega
    · rw [if_neg hg] at h
      push_neg at hg
      obtain ⟨hlen, hnn, hsum⟩ := ih (p + 1) (bumpAt d (o p % d.length) 1) p2 d2 h
      by_cases hnil : d = []
      · subst hnil
        refine ⟨by simpa [bumpAt] using hlen, fun _ => hnn (by simp [bumpAt]),
          fun hne => absurd rfl hne⟩
      · have hdpos : 0 < d.length := List.length_pos.mpr hnil
        have hi : o p % d.length < d.length := Nat.mod_lt _ hdpos
        have hblen : (bumpAt d (o p % d.length) 1).length = d.length :=
          bumpAt_length d _ 1
        have hbsum : (bumpAt d (o p % d.length) 1).sum = d.sum + 1 :=
          bumpAt_sum d _ 1 hi
        refine ⟨by rw [hlen, hblen], ?_, ?_⟩
        · intro hd0
          apply hnn
          apply bumpAt_nonneg d _ 1 hd0
          have := getD_nonneg hd0 (o p % d.length)
          omega
        · intro _
          have hbne : bumpAt d (o p % d.length) 1 ≠ [] := by
            intro hcon
            rw [hcon] at hblen
            simp at hblen
            omega
          rw [hsum hbne, hbsum]
          omega

/-- Invariants of the unit-subtract loop: length and non-negativity are
preserved, and if the total started at or above `count` it ends exactly at
`count`. -/
theorem subLoop_spec (count : ℤ) (o : ℕ → ℕ) :
    ∀ (fuel p : ℕ) (d : List ℤ) (p2 : ℕ) (d2 : List ℤ),
      subLoop count o fuel p d = some (p2, d2) →
      d2.length = d.length ∧
      ((∀ x ∈ d, 0 ≤ x) → ∀ x ∈ d2, 0 ≤ x) ∧
      (count ≤ d.sum → d2.sum = count) := by
  intro fuel
  induction fuel with
  | zero =>
    intro p d p2 d2 h
    rw [subLoop_eq] at h
    by_cases hg : ¬ d.sum > count
    · rw [if_pos hg] at h
      simp only [Option.some.injEq, Prod.mk.injEq] at h
      obtain ⟨rfl, rfl⟩ := h
      exact ⟨rfl, fun hx => hx, fun hle => by omega⟩
    · rw [if_neg hg] at h
      simp at h
  | succ fuel ih =>
    intro p d p2 d2 h
    rw [subLoop_eq] at h
    by_cases hg : ¬ d.sum > count
    · rw [if_pos hg] at h
      simp only [Option.some.injEq, Prod.mk.injEq] at h
      obtain ⟨rfl, rfl⟩ := h
      exact ⟨rfl, fun hx => hx, fun hle => by omega⟩
    · rw [if_neg hg] at h
      push_neg at hg
      simp only at h
      by_cases hpos : 0 < d.getD (o p % d.length) 0
      · rw [if_pos hpos] at h
        obtain ⟨hlen, hnn, hsum⟩ := ih (p + 1) _ p2 d2 h
        have hdpos : 0 < d.length := by
          by_contra hcon
          have : d = [] := List.eq_nil_of_length_eq_zero (by omega)
          subst this
          simp at hpos
        have hi : o p % d.length < d.length := Nat.mod_lt _ hdpos
        have hblen := bumpAt_length d (o p % d.length) (-1)
        have hbsum := bumpAt_sum d (o p % d.length) (-1) hi
        refine ⟨by rw [hlen, hblen], ?_, ?_⟩
        · intro hd0
          apply hnn
          apply bumpAt_nonneg d _ (-1) hd0
          omega
        · intro _
          apply hsum
          omega
      · rw [if_neg hpos] at h
        exact ih (p + 1) d p2 d2 h

/-- Invariants of the reassignment loop: length, non-negativity and the total
are all preserved. -/
theorem reassignLoop_spec (o : ℕ → ℕ) :
    ∀ (fuel n p : ℕ) (d : List ℤ) (d2 : List ℤ),
      reassignLoop o fuel n p d = some d2 →
      d2.length = d.length ∧
      ((∀ x ∈ d, 0 ≤ x) → ∀ x ∈ d2, 0 ≤ x) ∧
      d2.sum = d.sum := by
  intro fuel
  induction fuel with
  | zero =>
    intro n p d d2 h
    cases n with
    | zero =>
      simp only [reassignLoop, Option.some.injEq] at h
      subst h
      exact ⟨rfl, fun hx => hx, rfl⟩
    | succ n => simp [reassignLoop] at h
  | succ fuel ih =>
    intro n p d d2 h
    cases n with
    | zero =>
      simp only [reassignLoop, Option.some.injEq] at h
      subst h
      exact ⟨rfl, fun hx => hx, rfl⟩
    | succ n =>
      rw [reassignLoop_eq_succ] at h
      by_cases hlt : d.length < 2
      · rw [if_pos hlt] at h
        simp at h
      · rw [if_neg hlt] at h
        have hk : 2 ≤ d.length := by omega
        set i := sampleFrom d.length (o p) with hi
        set j := sampleTo d.length (o p) with hj
        have hilt : i < d.length := sampleFrom_lt _ _ hk
        have hjlt : j < d.length := sampleTo_lt _ _ hk
        have hne : j ≠ i := sampleTo_ne_sampleFrom _ _
        by_cases hpos : 0 < d.getD i 0
        · rw [if_pos hpos] at h
          obtain ⟨hlen, hnn, hsum⟩ := ih n (p + 1) _ d2 h
          have hb1len := bumpAt_length d i (-1)
          have hb2len := bumpAt_length (bumpAt d i (-1)) j 1
          have hb1sum := bumpAt_sum d i (-1) hilt
          have hb2sum := bumpAt_sum (bumpAt d i (-1)) j 1 (by rw [hb1len]; exact hjlt)
          refine ⟨by rw [hlen, hb2len, hb1len], ?_, ?_⟩
          · intro hd0
            apply hnn
            have hb1nn : ∀ x ∈ bumpAt d i (-1), 0 ≤ x := by
              apply bumpAt_nonneg d i (-1) hd0
              omega
            apply bumpAt_nonneg _ j 1 hb1nn
            have := getD_nonneg hb1nn j
            omega
          · rw [hsum, hb2sum, hb1sum]
            omega
        · rw [if_neg hpos] at h
          exact ih (n + 1) (p + 1) d d2 h

/-- C1: for every Distribution Allocator call with total `count ≥ 0`, any
`sd`, any reassignment count and any random behaviour, a returned distribution
assigns a value to every configured category (same length as the weight
table), every value is a non-negative integer and the values sum exactly to
`count`.  Hypotheses mirror the configured weight table: non-negative weights
with positive total (a zero total would raise `ZeroDivisionError` in step 2 of
the source). -/
theorem C1_allocator_nonneg_sum (w : List ℚ) (count : ℤ) (sd : ℚ)
    (noise : ℕ → ℚ) (o : ℕ → ℕ) (reassignments fuel : ℕ) (d : List ℤ)
    (hw : ∀ x ∈ w, 0 ≤ x) (hs : 0 < w.sum) (hc : 0 ≤ count)
    (h : generate_state_distribution w count sd noise o reassignments fuel
      = some d) :
    d.length = w.length ∧ (∀ x ∈ d, 0 ≤ x) ∧ d.sum = count := by
  have hwne : w ≠ [] := by
    intro hcon
    rw [hcon] at hs
    simp at hs
  unfold generate_state_distribution at h
  set d0 := baselineDistribution w count sd noise with hd0
  have hd0len : d0.length = w.length := baselineDistribution_length w count sd noise
  have hd0nn : ∀ x ∈ d0, 0 ≤ x := baselineDistribution_nonneg w count sd noise hw hc
  have hd0ne : d0 ≠ [] := by
    intro hcon
    rw [hcon] at hd0len
    exact hwne (List.eq_nil_of_length_eq_zero hd0len.symm)
  cases h1 : addLoop count o fuel 0 d0 with
  | none => rw [h1] at h; simp at h
  | some pd1 =>
    obtain ⟨p1, d1⟩ := pd1
    rw [h1] at h
    simp only at h
    obtain ⟨h1len, h1nn, h1sum⟩ := addLoop_spec count o fuel 0 d0 p1 d1 h1
    have h1sum' : d1.sum = max d0.sum count := h1sum hd0ne
    cases h2 : subLoop count o fuel p1 d1 with
    | none => rw [h2] at h; simp at h
    | some pd2 =>
      obtain ⟨p2, d2⟩ := pd2
      rw [h2] at h
      simp only at h
      obtain ⟨h2len, h2nn, h2sum⟩ := subLoop_spec count o fuel p1 d1 p2 d2 h2
      have h2sum' : d2.sum = count := by
        apply h2sum
        rw [h1sum']
        exact le_max_right _ _
      obtain ⟨h3len, h3nn, h3sum⟩ := reassignLoop_spec o fuel reassignments p2 d2 d h
      refine ⟨?_, ?_, ?_⟩
      · rw [h3len, h2len, h1len, hd0len]
      · exact h3nn (h2nn (h1nn hd0nn))
      · rw [h3sum, h2sum']

/-- Witness for C1 at a concrete run: weights `[1, 1]`, total `3`, `sd = 0`,
no reassignments.  The baseline rounds to `[2, 2]`, the subtract loop removes
one unit, and the result `[1, 2]` is non-negative and sums to `3`. -/
theorem C1_allocator_nonneg_sum_witness :
    ([1, 2] : List ℤ).length = ([(1 : ℚ), 1]).length ∧
      (∀ x ∈ ([1, 2] : List ℤ), 0 ≤ x) ∧ ([1, 2] : List ℤ).sum = 3 := by
  have hbase : baselineDistribution [1, 1] 3 0 (fun _ => 0) = [2, 2] := by
    norm_num [baselineDistribution, pyRound, round_eq]
  have hrun : generate_state_distribution [1, 1] 3 0 (fun _ => 0) (fun n => n)
      0 5 = some [1, 2] := by
    simp only [generate_state_distribution, hbase]
    decide
  exact C1_allocator_nonneg_sum [1, 1] 3 0 (fun _ => 0) (fun n => n) 0 5 [1, 2]
    (by norm_num) (by norm_num) (by norm_num) hrun

/-! ### Allocator termination (claim C9)

The random stream is demonic in this embedding, so "the loop terminates" is
proved under the fairness condition that every residue keeps appearing in the
stream — the property that holds with probability 1 for the uniform draws of
`random.Random`.  The reassignment loop with total `0` is stuck for every
stream, fair or not: no category ever has a unit to move. -/

/-- A fair oracle: past any position, every residue class modulo any modulus
eventually occurs.  This holds almost surely for a uniform random stream, and
holds for the deterministic stream `fun n => n`. -/
def FairOracle (o : ℕ → ℕ) : Prop :=
  ∀ p m i, 0 < m → i < m → ∃ q, p ≤ q ∧ o q % m = i

theorem fairOracle_id : FairOracle (fun n => n) := by
  intro p m i hm hi
  refine ⟨m * p + i, ?_, ?_⟩
  · calc p = 1 * p := by ring
    _ ≤ m * p := Nat.mul_le_mul_right p hm
    _ ≤ m * p + i := Nat.le_add_right _ _
  · show (m * p + i) % m = i
    rw [Nat.mul_add_mod, Nat.mod_eq_of_lt hi]

/-- A list of non-negative integers with positive sum has a positive entry. -/
theorem exists_pos_entry : ∀ (d : List ℤ), (∀ x ∈ d, 0 ≤ x) → 0 < d.sum →
    ∃ i, i < d.length ∧ 0 < d.getD i 0 := by
  intro d
  induction d with
  | nil => intro _ hs; simp at hs
  | cons hd tl ih =>
    intro hnn hs
    by_cases hhd : 0 < hd
    · exact ⟨0, by simp, by simpa using hhd⟩
    · have hhd0 : hd = 0 := le_antisymm (by omega) (hnn hd (by simp))
      have htl : 0 < tl.sum := by
        simp only [List.sum_cons, hhd0, zero_add] at hs
        exact hs
      obtain ⟨i, hi, hpos⟩ := ih (fun x hx => hnn x (by simp [hx])) htl
      exact ⟨i + 1, by simpa using hi, by simpa using hpos⟩

/-- The unit-add loop always finishes once given enough fuel, for every
oracle, since each iteration raises the total by one. -/
theorem addLoop_done (count : ℤ) (o : ℕ → ℕ) :
    ∀ n (d : List ℤ) (p : ℕ), d ≠ [] → (count - d.sum).toNat ≤ n →
      ∃ p2 d2, addLoop count o n p d = some (p2, d2) := by
  intro n
  induction n with
  | zero =>
    intro d p hne hn
    refine ⟨p, d, ?_⟩
    rw [addLoop_eq, if_pos (by omega)]
  | succ n ih =>
    intro d p hne hn
    by_cases hg : ¬ d.sum < count
    · exact ⟨p, d, by rw [addLoop_eq, if_pos hg]⟩
    · push_neg at hg
      have hdpos : 0 < d.length := List.length_pos.mpr hne
      have hi : o p % d.length < d.length := Nat.mod_lt _ hdpos
      have hbsum := bumpAt_sum d (o p % d.length) 1 hi
      have hbne : bumpAt d (o p % d.length) 1 ≠ [] := by
        intro hcon
        have := bumpAt_length d (o p % d.length) 1
        rw [hcon] at this
        simp at this
        omega
      obtain ⟨p2, d2, hrec⟩ := ih (bumpAt d (o p % d.length) 1) (p + 1) hbne
        (by omega)
      refine ⟨p2, d2, ?_⟩
      rw [addLoop_eq, if_neg (by omega)]
      exact hrec

/-- Fuel monotonicity of the unit-add loop. -/
theorem addLoop_mono (count : ℤ) (o : ℕ → ℕ) :
    ∀ fuel fuel' p d x, fuel ≤ fuel' → addLoop count o fuel p d = some x →
      addLoop count o fuel' p d = some x := by
  intro fuel
  induction fuel with
  | zero =>
    intro fuel' p d x _ h
    rw [addLoop_eq] at h
    by_cases hg : ¬ d.sum < count
    · rw [if_pos hg] at h
      rw [addLoop_eq, if_pos hg]
      exact h
    · rw [if_neg hg] at h
      simp at h
  | succ fuel ih =>
    intro fuel' p d x hle h
    rw [addLoop_eq] at h
    by_cases hg : ¬ d.sum < count
    · rw [if_pos hg] at h
      rw [addLoop_eq, if_pos hg]
      exact h
    · rw [if_neg hg] at h
      obtain ⟨fuel'', rfl⟩ : ∃ k, fuel' = k + 1 := by
        cases fuel' with
        | zero => omega
        | succ k => exact ⟨k, rfl⟩
      rw [addLoop_eq, if_neg hg]
      exact ih fuel'' (p + 1) _ x (by omega) h

/-- Fuel monotonicity of the unit-subtract loop. -/
theorem subLoop_mono (count : ℤ) (o : ℕ → ℕ) :
    ∀ fuel fuel' p d x, fuel ≤ fuel' → subLoop count o fuel p d = some x →
      subLoop count o fuel' p d = some x := by
  intro fuel
  induction fuel with
  | zero =>
    intro fuel' p d x _ h
    rw [subLoop_eq] at h
    by_cases hg : ¬ d.sum > count
    · rw [if_pos hg] at h
      rw [subLoop_eq, if_pos hg]
      exact h
    · rw [if_neg hg] at h
      simp at h
  | succ fuel ih =>
    intro fuel' p d x hle h
    rw [subLoop_eq] at h
    by_cases hg : ¬ d.sum > count
    · rw [if_pos hg] at h
      rw [subLoop_eq, if_pos hg]
      exact h
    · rw [if_neg hg] at h
      simp only at h
      obtain ⟨fuel'', rfl⟩ : ∃ k, fuel' = k + 1 := by
        cases fuel' with
        | zero => omega
        | succ k => exact ⟨k, rfl⟩
      rw [subLoop_eq, if_neg hg]
      simp only
      by_cases hpos : 0 < d.getD (o p % d.length) 0
      · rw [if_pos hpos] at h ⊢
        exact ih fuel'' (p + 1) _ x (by omega) h
      · rw [if_neg hpos] at h ⊢
        exact ih fuel'' (p + 1) d x (by omega) h

/-- Fuel monotonicity of the reassignment loop. -/
theorem reassignLoop_mono (o : ℕ → ℕ) :
    ∀ fuel fuel' n p d x, fuel ≤ fuel' → reassignLoop o fuel n p d = some x →
      reassignLoop o fuel' n p d = some x := by
  intro fuel
  induction fuel with
  | zero =>
    intro fuel' n p d x _ h
    cases n with
    | zero =>
      simp only [reassignLoop, Option.some.injEq] at h
      subst h
      cases fuel' <;> rfl
    | succ n => simp [reassignLoop] at h
  | succ fuel ih =>
    intro fuel' n p d x hle h
    cases n with
    | zero =>
      simp only [reassignLoop, Option.some.injEq] at h
      subst h
      cases fuel' <;> rfl
    | succ n =>
      obtain ⟨fuel'', rfl⟩ : ∃ k, fuel' = k + 1 := by
        cases fuel' with
        | zero => omega
        | succ k => exact ⟨k, rfl⟩
      rw [reassignLoop_eq_succ] at h
      rw [reassignLoop_eq_succ]
      by_cases hlt : d.length < 2
      · rw [if_pos hlt] at h
        simp at h
      · rw [if_neg hlt] at h ⊢
        by_cases hpos : 0 < d.getD (sampleFrom d.length (o p)) 0
        · rw [if_pos hpos] at h ⊢
          exact ih fuel'' n (p + 1) _ x (by omega) h
        · rw [if_neg hpos] at h ⊢
          exact ih fuel'' (n + 1) (p + 1) d x (by omega) h

/-- Under a fair oracle, the unit-subtract loop reaches `count` whenever it
starts at or above a non-negative `count`: between two decrements only
finitely many idle picks can occur before fairness forces a positive
category to be picked. -/
theorem subLoop_done (count : ℤ) (o : ℕ → ℕ) (hfair : FairOracle o)
    (hc : 0 ≤ count) :
    ∀ n (d : List ℤ) (p : ℕ),
      (∀ x ∈ d, 0 ≤ x) → count ≤ d.sum → (d.sum - count).toNat = n →
      ∃ fuel p2 d2, subLoop count o fuel p d = some (p2, d2) := by
  intro n
  induction n with
  | zero =>
    intro d p hnn hle hn
    exact ⟨0, p, d, by rw [subLoop_eq, if_pos (by omega)]⟩
  | succ n ih =>
    intro d p hnn hle hn
    have hgt : count < d.sum := by omega
    obtain ⟨i0, hi0len, hi0pos⟩ := exists_pos_entry d hnn (by omega)
    have hstep : ∀ Δ (p : ℕ) (d : List ℤ),
        (∀ x ∈ d, 0 ≤ x) → count < d.sum → (d.sum - count).toNat = n + 1 →
        i0 < d.length → 0 < d.getD i0 0 → o (p + Δ) % d.length = i0 →
        ∃ fuel p2 d2, subLoop count o fuel p d = some (p2, d2) := by
      intro Δ
      induction Δ with
      | zero =>
        intro p d hnn' hgt' hn' hi0len' hi0pos' hpick
        rw [Nat.add_zero] at hpick
        have hmem : o p % d.length < d.length := by rw [hpick]; exact hi0len'
        have hbsum := bumpAt_sum d (o p % d.length) (-1) hmem
        have hbnn : ∀ x ∈ bumpAt d (o p % d.length) (-1), 0 ≤ x := by
          apply bumpAt_nonneg d _ (-1) hnn'
          rw [hpick]
          omega
        obtain ⟨fuel, p2, d2, hrec⟩ := ih (bumpAt d (o p % d.length) (-1)) (p + 1)
          hbnn (by omega) (by omega)
        refine ⟨fuel + 1, p2, d2, ?_⟩
        rw [subLoop_eq, if_neg (by omega)]
        simp only
        rw [if_pos (by rw [hpick]; exact hi0pos')]
        exact hrec
      | succ Δ ihΔ =>
        intro p d hnn' hgt' hn' hi0len' hi0pos' hpick
        by_cases hcur : 0 < d.getD (o p % d.length) 0
        · have hlen0 : 0 < d.length := by omega
          have hmem : o p % d.length < d.length := Nat.mod_lt _ hlen0
          have hbsum := bumpAt_sum d (o p % d.length) (-1) hmem
          have hbnn : ∀ x ∈ bumpAt d (o p % d.length) (-1), 0 ≤ x := by
            apply bumpAt_nonneg d _ (-1) hnn'
            omega
          obtain ⟨fuel, p2, d2, hrec⟩ := ih (bumpAt d (o p % d.length) (-1)) (p + 1)
            hbnn (by omega) (by omega)
          refine ⟨fuel + 1, p2, d2, ?_⟩
          rw [subLoop_eq, if_neg (by omega)]
          simp only
          rw [if_pos hcur]
          exact hrec
        · have hpick' : o (p + 1 + Δ) % d.length = i0 := by
            have heq : p + 1 + Δ = p + (Δ + 1) := by omega
            rw [heq]
            exact hpick
          obtain ⟨fuel, p2, d2, hrec⟩ := ihΔ (p + 1) d hnn' hgt' hn' hi0len' hi0pos'
            hpick'
          refine ⟨fuel + 1, p2, d2, ?_⟩
          rw [subLoop_eq, if_neg (by omega)]
          simp only
          rw [if_neg hcur]
          exact hrec
    have hlen0 : 0 < d.length := by omega
    obtain ⟨q, hpq, hoq⟩ := hfair p d.length i0 hlen0 hi0len
    have hq : p + (q - p) = q := by omega
    exact hstep (q - p) p d hnn hgt hn hi0len hi0pos (by rw [hq]; exact hoq)

/-- Under a fair oracle, every reassignment step finishes as long as the total
is at least one unit (so some category can donate) and there are at least two
categories (so `r.sample(keys, 2)` is legal). -/
theorem reassignLoop_done (o : ℕ → ℕ) (hfair : FairOracle o) :
    ∀ N (d : List ℤ) (p : ℕ),
      (∀ x ∈ d, 0 ≤ x) → 1 ≤ d.sum → 2 ≤ d.length →
      ∃ fuel d2, reassignLoop o fuel N p d = some d2 := by
  intro N
  induction N with
  | zero =>
    intro d p _ _ _
    exact ⟨0, d, reassignLoop_eq_zero o 0 p d⟩
  | succ N ih =>
    intro d p hnn hsum hk
    obtain ⟨i0, hi0len, hi0pos⟩ := exists_pos_entry d hnn (by omega)
    have hprog : ∀ (p : ℕ) (d : List ℤ),
        (∀ x ∈ d, 0 ≤ x) → 1 ≤ d.sum → 2 ≤ d.length →
        0 < d.getD (sampleFrom d.length (o p)) 0 →
        ∃ fuel d2, reassignLoop o fuel (N + 1) p d = some d2 := by
      intro p d hnn' hsum' hk' hcur
      have hilt : sampleFrom d.length (o p) < d.length := sampleFrom_lt _ _ hk'
      have hjlt : sampleTo d.length (o p) < d.length := sampleTo_lt _ _ hk'
      have hb1sum := bumpAt_sum d (sampleFrom d.length (o p)) (-1) hilt
      have hb1len := bumpAt_length d (sampleFrom d.length (o p)) (-1)
      have hb1nn : ∀ x ∈ bumpAt d (sampleFrom d.length (o p)) (-1), 0 ≤ x := by
        apply bumpAt_nonneg d _ (-1) hnn'
        omega
      have hb2sum := bumpAt_sum (bumpAt d (sampleFrom d.length (o p)) (-1))
        (sampleTo d.length (o p)) 1 (by rw [hb1len]; exact hjlt)
      have hb2len := bumpAt_length (bumpAt d (sampleFrom d.length (o p)) (-1))
        (sampleTo d.length (o p)) 1
      have hb2nn : ∀ x ∈ bumpAt (bumpAt d (sampleFrom d.length (o p)) (-1))
          (sampleTo d.length (o p)) 1, 0 ≤ x := by
        apply bumpAt_nonneg _ _ 1 hb1nn
        have := getD_nonneg hb1nn (sampleTo d.length (o p))
        omega
      obtain ⟨fuel, d2, hrec⟩ := ih
        (bumpAt (bumpAt d (sampleFrom d.length (o p)) (-1)) (sampleTo d.length (o p)) 1)
        (p + 1) hb2nn (by omega) (by rw [hb2len, hb1len]; exact hk')
      refine ⟨fuel + 1, d2, ?_⟩
      rw [reassignLoop_eq_succ, if_neg (by omega), if_pos hcur]
      exact hrec
    have hstep : ∀ Δ (p : ℕ) (d : List ℤ),
        (∀ x ∈ d, 0 ≤ x) → 1 ≤ d.sum → 2 ≤ d.length →
        i0 < d.length → 0 < d.getD i0 0 →
        sampleFrom d.length (o (p + Δ)) = i0 →
        ∃ fuel d2, reassignLoop o fuel (N + 1) p d = some d2 := by
      intro Δ
      induction Δ with
      | zero =>
        intro p d hnn' hsum' hk' hi0len' hi0pos' hpick
        rw [Nat.add_zero] at hpick
        exact hprog p d hnn' hsum' hk' (by rw [hpick]; exact hi0pos')
      | succ Δ ihΔ =>
        intro p d hnn' hsum' hk' hi0len' hi0pos' hpick
        by_cases hcur : 0 < d.getD (sampleFrom d.length (o p)) 0
        · exact hprog p d hnn' hsum' hk' hcur
        · have hpick' : sampleFrom d.length (o (p + 1 + Δ)) = i0 := by
            have heq : p + 1 + Δ = p + (Δ + 1) := by omega
            rw [heq]
            exact hpick
          obtain ⟨fuel, d2, hrec⟩ := ihΔ (p + 1) d hnn' hsum' hk' hi0len' hi0pos'
            hpick'
          refine ⟨fuel + 1, d2, ?_⟩
          rw [reassignLoop_eq_succ, if_neg (by omega), if_neg hcur]
          exact hrec
    have hmodpos : 0 < d.length * (d.length - 1) := by
      apply Nat.mul_pos <;> omega
    have hreslt : i0 * (d.length - 1) < d.length * (d.length - 1) := by
      apply Nat.mul_lt_mul_of_lt_of_le hi0len (le_refl _)
      omega
    obtain ⟨q, hpq, hoq⟩ := hfair p (d.length * (d.length - 1))
      (i0 * (d.length - 1)) hmodpos hreslt
    have hsf : sampleFrom d.length (o q) = i0 := by
      unfold sampleFrom
      rw [hoq]
      exact Nat.mul_div_cancel _ (by omega)
    have hq : p + (q - p) = q := by omega
    exact hstep (q - p) p d hnn hsum hk hi0len hi0pos (by rw [hq]; exact hsf)

/-- A reassignment request over the two-category table with total `0` never
finishes: no category ever has a unit to donate, for any fuel and oracle. -/
theorem reassignLoop_stuck_zero (o : ℕ → ℕ) :
    ∀ fuel n p, reassignLoop o fuel (n + 1) p [0, 0] = none := by
  intro fuel
  induction fuel with
  | zero => intro n p; rfl
  | succ fuel ih =>
    intro n p
    have hgetD : ∀ i, ([0, 0] : List ℤ).getD i 0 = 0 := by
      intro i
      rcases i with _ | _ | i <;> rfl
    rw [reassignLoop_eq_succ, if_neg (by norm_num),
      if_neg (by rw [hgetD]; omega)]
    exact ih n (p + 1)

/-- Counterexample to C9 as stated: with total `0`, any `sd ≥ 0` and one
reassignment, `generate_state_distribution` diverges — the reassignment
loop never exits for any amount of fuel (the run shown uses two unit weights
and the stream `fun n => n`, but `reassignLoop_stuck_zero` holds for every
stream). -/
theorem C9_total_zero_reassign_diverges :
    ¬ ∃ fuel, (generate_state_distribution [1, 1] 0 0 (fun _ => 0)
      (fun n => n) 1 fuel).isSome := by
  rintro ⟨fuel, hf⟩
  have hbase : baselineDistribution [1, 1] 0 0 (fun _ => 0) = [0, 0] := by
    norm_num [baselineDistribution, pyRound, round_eq]
  unfold generate_state_distribution at hf
  rw [hbase] at hf
  have hadd : addLoop 0 (fun n => n) fuel 0 [0, 0] = some (0, [0, 0]) := by
    rw [addLoop_eq, if_pos (by decide)]
  rw [hadd] at hf
  simp only at hf
  have hsub : subLoop 0 (fun n => n) fuel 0 [0, 0] = some (0, [0, 0]) := by
    rw [subLoop_eq, if_pos (by decide)]
  rw [hsub] at hf
  simp only at hf
  rw [reassignLoop_stuck_zero] at hf
  simp at hf

/-- C9, amended: the Distribution Allocator terminates for every total
`count ≥ 0`, every `sd` and every reassignment count `N ≥ 0` — except that
for `count = 0` with `N ≥ 1` the reassignment loop diverges
(`C9_total_zero_reassign_diverges`).  Because the random stream is demonic in
this embedding, termination of the subtract and reassignment loops is proved
under the fairness condition `FairOracle`, which a uniform random stream
satisfies with probability 1 (an unfair stream may forever pick empty
categories).  At least two categories are required when `N ≥ 1`, as in the
configured table (`r.sample(keys, 2)` raises `ValueError` otherwise). -/
theorem C9_allocator_terminates (w : List ℚ) (count : ℤ) (sd : ℚ)
    (noise : ℕ → ℚ) (o : ℕ → ℕ) (N : ℕ)
    (hw : ∀ x ∈ w, 0 ≤ x) (hs : 0 < w.sum) (hc : 0 ≤ count)
    (hfair : FairOracle o) (hN : N = 0 ∨ (1 ≤ count ∧ 2 ≤ w.length)) :
    ∃ fuel d, generate_state_distribution w count sd noise o N fuel = some d := by
  have hwne : w ≠ [] := by
    intro hcon
    rw [hcon] at hs
    simp at hs
  set d0 := baselineDistribution w count sd noise with hd0def
  have hd0len : d0.length = w.length := baselineDistribution_length w count sd noise
  have hd0nn : ∀ x ∈ d0, 0 ≤ x := baselineDistribution_nonneg w count sd noise hw hc
  have hd0ne : d0 ≠ [] := by
    intro hcon
    rw [hcon] at hd0len
    exact hwne (List.eq_nil_of_length_eq_zero hd0len.symm)
  obtain ⟨p1, d1, hadd⟩ := addLoop_done count o ((count - d0.sum).toNat) d0 0
    hd0ne (le_refl _)
  obtain ⟨h1len, h1nn, h1sum⟩ := addLoop_spec count o _ 0 d0 p1 d1 hadd
  have h1sum' : d1.sum = max d0.sum count := h1sum hd0ne
  have h1ge : count ≤ d1.sum := by rw [h1sum']; exact le_max_right _ _
  obtain ⟨fuel2, p2, d2, hsub⟩ := subLoop_done count o hfair hc
    ((d1.sum - count).toNat) d1 p1 (h1nn hd0nn) h1ge rfl
  obtain ⟨h2len, h2nn, h2sum⟩ := subLoop_spec count o fuel2 p1 d1 p2 d2 hsub
  have h2sum' : d2.sum = count := h2sum h1ge
  have h2nn' : ∀ x ∈ d2, 0 ≤ x := h2nn (h1nn hd0nn)
  rcases hN with rfl | ⟨hcnt, hklen⟩
  · refine ⟨max ((count - d0.sum).toNat) fuel2, d2, ?_⟩
    unfold generate_state_distribution
    rw [← hd0def]
    rw [addLoop_mono count o _ _ 0 d0 (p1, d1) (le_max_left _ _) hadd]
    simp only
    rw [subLoop_mono count o fuel2 _ p1 d1 (p2, d2) (le_max_right _ _) hsub]
    simp only
    exact reassignLoop_eq_zero o _ p2 d2
  · have h2k : 2 ≤ d2.length := by
      rw [h2len, h1len, hd0len]
      exact hklen
    obtain ⟨fuel3, d3, hre⟩ := reassignLoop_done o hfair N d2 p2 h2nn'
      (by omega) h2k
    refine ⟨max (max ((count - d0.sum).toNat) fuel2) fuel3, d3, ?_⟩
    unfold generate_state_distribution
    rw [← hd0def]
    rw [addLoop_mono count o _ _ 0 d0 (p1, d1)
      (le_trans (le_max_left _ _) (le_max_left _ _)) hadd]
    simp only
    rw [subLoop_mono count o fuel2 _ p1 d1 (p2, d2)
      (le_trans (le_max_right _ _) (le_max_left _ _)) hsub]
    simp only
    exact reassignLoop_mono o fuel3 _ N p2 d2 d3 (le_max_right _ _) hre

/-- Witness for the amended C9: a concrete terminating run with total `2`,
two categories and one reassignment, under the fair stream `fun n => n`. -/
theorem C9_allocator_terminates_witness :
    ∃ fuel d, generate_state_distribution [1, 1] 2 0 (fun _ => 0) (fun n => n)
      1 fuel = some d :=
  C9_allocator_terminates [1, 1] 2 0 (fun _ => 0) (fun n => n) 1
    (by norm_num) (by norm_num) (by norm_num) fairOracle_id
    (Or.inr ⟨by norm_num, by norm_num⟩)

/-! ## Data model (`models.py`) and the read-only catalogue

Entity records keep every field the embedded functions read; the inert
identity and contact strings (name, street, city, email, ...) are generated
text that no embedded code inspects, so they are omitted. -/

structure RoomInfo where
  count : ℤ
  price : ℚ
deriving DecidableEq

structure Hotel where
  id : ℕ
  state : String
  rooms : List (String × RoomInfo)
  resort_fee : ℚ
deriving DecidableEq

structure Customer where
  id : ℕ
  type : String
deriving DecidableEq

/-- The f-string descriptions of the four line-item kinds, kept as tagged
values instead of formatted text. -/
inductive LineDesc where
  | roomCharge (nights : ℤ) (price : ℚ)
  | resortFee (fee : ℚ)
  | salesTax (st : String) (rate : ℚ)
  | luxuryTax (st : String) (rate : ℚ)
deriving DecidableEq

structure LineItem where
  description : LineDesc
  amount_per : ℚ
  quantity : ℤ
deriving DecidableEq

inductive PayStatus where
  | approved
  | declined
deriving DecidableEq

/-- `Payment` of `models.py`; the card-name choice and the four digits are the
raw oracle draws for `r.choice(...)` and `r.randrange(10, 9999)`. -/
structure Payment where
  cardName : ℕ
  cardDigits : ℕ
  amount : ℚ
  status : PayStatus
deriving DecidableEq

/-- `Transaction` of `models.py` (dates as simulation day numbers). -/
structure Transaction where
  customer_id : ℕ
  hotel_id : ℕ
  check_in_date : ℤ
  check_out_date : ℤ
  line_items : List LineItem
  total : ℚ
  payment : Payment
  id : Option ℕ := none
deriving DecidableEq

/-- `RetailTransaction` of `models.py`: its fields are `customer_id`,
`store_id`, `line_items`, `total`, `payment` and `id` — it has no `hotel_id`,
`check_in_date` or `check_out_date` field. -/
structure RetailTransaction where
  customer_id : Option ℕ
  store_id : ℕ
  line_items : List LineItem
  total : ℚ
  payment : Payment
  id : Option ℕ := none
deriving DecidableEq

/-- Python runtime errors surfaced by the embedded code. -/
inductive PyErr where
  | typeErrorUnexpectedKwarg
  | keyError
  | valueError
  | indexError
deriving DecidableEq

/-- Per-state tax entry of the read-only catalogue `data.state_data`. -/
structure StateTaxes where
  sales_tax : ℚ
  luxury_tax : ℚ
deriving DecidableEq

/-- Embedding of `data.state_data.get(state, dict()).get('sales_tax', 0)`. -/
def salesTaxOf (stateData : List (String × StateTaxes)) (st : String) : ℚ :=
  match lookupA stateData st with
  | some t => t.sales_tax
  | none => 0

/-- Embedding of `data.state_data.get(state, dict()).get('luxury_tax', 0)`. -/
def luxuryTaxOf (stateData : List (String × StateTaxes)) (st : String) : ℚ :=
  match lookupA stateData st with
  | some t => t.luxury_tax
  | none => 0

/-- `round(x, 2)` on a Python float, on exact rationals. -/
def pyRound2 (q : ℚ) : ℚ := (pyRound (q * 100) : ℚ) / 100

/-! ## Transaction generation (`generators/transaction.py`)

The file defines `generate_transaction` twice with an identical body for the
monetary computation (lines 26–85 and 111–170); the second definition shadows
the first at import time and differs only in its final constructor call.
`generate_transaction_items` embeds the shared computation. -/

/-- Running `room_cost` after the optional resort fee: line 32 and the
`+=` of line 134 of the source. -/
def gtRoomCost (this_hotel : Hotel) (room_price : ℚ) (stay_length : ℤ) : ℚ :=
  if this_hotel.resort_fee > 0 then
    room_price * (stay_length : ℚ) + this_hotel.resort_fee * (stay_length : ℚ)
  else room_price * (stay_length : ℚ)

/-- Lines 111–162 of `generators/transaction.py` (identical to lines 26–77):
the line items in append order — room charge, optional resort fee, optional
sales tax, optional luxury tax — and the rounded `overall_total`.  The luxury
check of line 151 compares the accumulated `room_cost` (room plus fee, whole
stay) against `100`. -/
def generate_transaction_items (stateData : List (String × StateTaxes))
    (this_hotel : Hotel) (room_price : ℚ) (stay_length : ℤ) :
    List LineItem × ℚ :=
  let room_cost := gtRoomCost this_hotel room_price stay_length
  let state_tax := salesTaxOf stateData this_hotel.state
  let luxury_tax := luxuryTaxOf stateData this_hotel.state
  let line_items : List LineItem :=
    [⟨LineDesc.roomCharge stay_length room_price, room_price, stay_length⟩]
    ++ (if this_hotel.resort_fee > 0 then
        [⟨LineDesc.resortFee this_hotel.resort_fee, this_hotel.resort_fee,
          stay_length⟩]
      else [])
    ++ (if state_tax > 0 then
        [⟨LineDesc.salesTax this_hotel.state state_tax, room_cost * state_tax, 1⟩]
      else [])
    ++ (if room_cost > 100 then
        (if luxury_tax > 0 then
          [⟨LineDesc.luxuryTax this_hotel.state luxury_tax,
            room_cost * luxury_tax, 1⟩]
        else [])
      else [])
  let overall_total :=
    room_cost
    + (if state_tax > 0 then room_cost * state_tax else 0)
    + (if room_cost > 100 then
        (if luxury_tax > 0 then room_cost * luxury_tax else 0)
      else 0)
  (line_items, pyRound2 overall_total)

/-- The `Payment` built at lines 164–170: a 5% decline rate on the oracle
draw of `r.random()`. -/
def gtPayment (overall_total : ℚ) (declineDraw : ℚ) (cardIdx digits : ℕ) :
    Payment :=
  { cardName := cardIdx, cardDigits := digits, amount := overall_total,
    status := if declineDraw < 5 / 100 then PayStatus.declined
      else PayStatus.approved }

/-- The first definition of `generate_transaction` (lines 13–95), shadowed
at module load time by the second: it would return a `Transaction` with the
customer, hotel, stay dates, line items, total and payment. -/
def generate_transaction_v1 (stateData : List (String × StateTaxes))
    (hotels_by_id : List (ℕ × Hotel)) (current_day : ℤ)
    (hotel_id customer : ℕ) (stay_length : ℤ) (room_type : String)
    (declineDraw : ℚ) (cardIdx digits : ℕ) : Except PyErr Transaction :=
  match lookupA hotels_by_id hotel_id with
  | none => Except.error PyErr.keyError
  | some this_hotel =>
    match lookupA this_hotel.rooms room_type with
    | none => Except.error PyErr.keyError
    | some ri =>
      let itemsTotal := generate_transaction_items stateData this_hotel
        ri.price stay_length
      Except.ok
        { customer_id := customer, hotel_id := hotel_id,
          check_in_date := current_day - stay_length,
          check_out_date := current_day,
          line_items := itemsTotal.1, total := itemsTotal.2,
          payment := gtPayment itemsTotal.2 declineDraw cardIdx digits }

/-- The second, active definition of `generate_transaction` (lines 98–180),
the one bound at import time.  After the same monetary computation it
evaluates
`RetailTransaction(customer_id=..., hotel_id=..., check_in_date=...,
check_out_date=..., line_items=..., total=..., payment=...)`;
`RetailTransaction` has no `hotel_id`, `check_in_date` or `check_out_date`
field and requires `store_id`, so the constructor call raises `TypeError`
before any record is produced. -/
def generate_transaction (stateData : List (String × StateTaxes))
    (hotels_by_id : List (ℕ × Hotel)) (current_day : ℤ)
    (hotel_id customer : ℕ) (stay_length : ℤ) (room_type : String)
    (declineDraw : ℚ) (cardIdx digits : ℕ) : Except PyErr RetailTransaction :=
  match lookupA hotels_by_id hotel_id with
  | none => Except.error PyErr.keyError
  | some this_hotel =>
    match lookupA this_hotel.rooms room_type with
    | none => Except.error PyErr.keyError
    | some ri =>
      let itemsTotal := generate_transaction_items stateData this_hotel
        ri.price stay_length
      let _payment := gtPayment itemsTotal.2 declineDraw cardIdx digits
      Except.error PyErr.typeErrorUnexpectedKwarg

/-- The active `generate_transaction` never returns a value: every call ends
in a Python exception (`KeyError` on a bad id, otherwise the `TypeError` from
the `RetailTransaction` constructor call). -/
theorem generate_transaction_always_errors (stateData : List (String × StateTaxes))
    (hotels_by_id : List (ℕ × Hotel)) (current_day : ℤ)
    (hotel_id customer : ℕ) (stay_length : ℤ) (room_type : String)
    (declineDraw : ℚ) (cardIdx digits : ℕ) :
    ∃ e, generate_transaction stateData hotels_by_id current_day hotel_id
      customer stay_length room_type declineDraw cardIdx digits
      = Except.error e := by
  unfold generate_transaction
  split
  · exact ⟨PyErr.keyError, rfl⟩
  · split
    · exact ⟨PyErr.keyError, rfl⟩
    · exact ⟨PyErr.typeErrorUnexpectedKwarg, rfl⟩

/-- Counterexample to C3 as stated: a $40/night room for 2 nights with a
$30/night resort fee in a state levying a 5% luxury tax.  The pre-fee room
price, $40, does not exceed $100 per night, yet the generated line items do
contain a luxury-tax item, because the source gates on the accumulated
room-plus-fee cost of the whole stay ($140 > $100). -/
theorem C3_luxury_gate_cex :
    luxuryTaxOf [("mn", ⟨0, 5 / 100⟩)] "mn" = 5 / 100 ∧
    ¬ ((40 : ℚ) > 100) ∧
    (∃ li ∈ (generate_transaction_items [("mn", ⟨0, 5 / 100⟩)]
        ⟨1, "mn", [], 30⟩ 40 2).1,
      ∃ st rate, li.description = LineDesc.luxuryTax st rate) := by
  refine ⟨rfl, by norm_num, ?_⟩
  refine ⟨⟨LineDesc.luxuryTax "mn" (5 / 100),
    gtRoomCost ⟨1, "mn", [], 30⟩ 40 2 * (5 / 100), 1⟩, ?_, "mn", 5 / 100, rfl⟩
  norm_num [generate_transaction_items, gtRoomCost, salesTaxOf, luxuryTaxOf,
    lookupA]

/-- C3, amended: a luxury-tax line item is included if and only if the state
levies a luxury tax and the room-plus-fee cost of the whole stay exceeds
$100; when included, its amount is the luxury rate times the room-plus-fee
cost. -/
theorem C3_luxury_gate (stateData : List (String × StateTaxes))
    (this_hotel : Hotel) (room_price : ℚ) (stay_length : ℤ) :
    ((∃ li ∈ (generate_transaction_items stateData this_hotel room_price
        stay_length).1, ∃ st rate, li.description = LineDesc.luxuryTax st rate)
      ↔ 0 < luxuryTaxOf stateData this_hotel.state
        ∧ 100 < gtRoomCost this_hotel room_price stay_length) ∧
    (∀ li ∈ (generate_transaction_items stateData this_hotel room_price
        stay_length).1,
      (∃ st rate, li.description = LineDesc.luxuryTax st rate) →
      li.amount_per = gtRoomCost this_hotel room_price stay_length
        * luxuryTaxOf stateData this_hotel.state) := by
  by_cases hfee : this_hotel.resort_fee > 0 <;>
    by_cases hst : salesTaxOf stateData this_hotel.state > 0 <;>
    by_cases hrc : gtRoomCost this_hotel room_price stay_length > 100 <;>
    by_cases hlx : luxuryTaxOf stateData this_hotel.state > 0 <;>
    simp [generate_transaction_items, hfee, hst, hrc, hlx]

/-- C4: a $150/night room for 3 nights, no resort fee, 7% sales tax and 2%
luxury tax yield room cost $450.00, sales tax $31.50, luxury tax $9.00 and
total $490.50. -/
theorem C4_tax_example :
    gtRoomCost ⟨1, "xx", [], 0⟩ 150 3 = 450 ∧
    (generate_transaction_items [("xx", ⟨7 / 100, 2 / 100⟩)]
        ⟨1, "xx", [], 0⟩ 150 3).1
      = [⟨LineDesc.roomCharge 3 150, 150, 3⟩,
         ⟨LineDesc.salesTax "xx" (7 / 100), 31.5, 1⟩,
         ⟨LineDesc.luxuryTax "xx" (2 / 100), 9, 1⟩] ∧
    (generate_transaction_items [("xx", ⟨7 / 100, 2 / 100⟩)]
        ⟨1, "xx", [], 0⟩ 150 3).2 = 490.5 := by
  norm_num [generate_transaction_items, gtRoomCost, salesTaxOf, luxuryTaxOf,
    lookupA, pyRound2, pyRound]

/-! ## Simulation state (`simulation/__init__.py`)

`HGSimulationState.state` is a string-keyed dict; each key becomes a field.
The `cache` sub-dict contributes the three `*_by_*` fields.  Dates
(`datetime` values) are embedded as absolute day indices (`ℤ`);
`timedelta(days=n)` is `+ n`.  A booking is the tuple
`(customer_id, current_day_num_at_checkin, stay_length, room_type)` appended
by `checkin` — index 1 holds the day number current at check-in time. -/

structure Booking where
  customer_id : ℕ
  day_num : ℤ
  stay_length : ℤ
  room_type : String
deriving DecidableEq

/-- An `occupied_customers` entry:
`(customer_id, hotel_id, available_date)`. -/
structure Cooldown where
  customer_id : ℕ
  hotel_id : ℕ
  available_date : ℤ
deriving DecidableEq

/-- The two event dicts appended by `checkin` and `_checkout_record`. -/
inductive Event where
  | checkin (customer_id property_id : ℕ) (checkin_date checkout_date : ℤ)
      (room_type : String)
  | checkout (property_id customer_id : ℕ) (checkout_date : ℤ)
      (room_type : String)
deriving DecidableEq

/-- One `day_log` entry appended at the end of `process_day`. -/
structure DayLog where
  day_num : ℤ
  date : ℤ
  checkins : ℕ
  checkouts : ℕ
  reactivations : ℕ
  occupancy : ℚ
deriving DecidableEq

/-- One archetype entry of the catalogue `data.customer_archetypes`:
the population percentage and the `min_gap_days` value with the source's
`.get('min_gap_days', 14)` default already applied.  The stay-duration
weight table is not represented: `generate_stay_length` is a weighted random
draw whose result is supplied directly by the oracle. -/
structure ArchInfo where
  percentage : ℚ
  min_gap_days : ℤ
deriving DecidableEq

structure SimState where
  last_phase : Option ℤ
  corporation : Option (ℕ × ℕ)
  property_distribution : Option (ℤ × ℤ × ℤ)
  hotels : List Hotel
  customers : List Customer
  transactions : List RetailTransaction
  events : List Event
  occupied_rooms : List (ℕ × List (String × List Booking))
  occupied_customers : List (String × List Cooldown)
  customers_by_archetype : List (String × List ℕ)
  customers_by_id : List (ℕ × Customer)
  hotels_by_id : List (ℕ × Hotel)
  current_day : ℤ
  current_day_num : Option ℤ
  days_left : ℤ
  day_log : List DayLog
deriving DecidableEq

/-- `get_datetime_by_day_num` of `simulation/day.py`: the job's start date
plus the day number. -/
def get_datetime_by_day_num (job_start day_num : ℤ) : ℤ :=
  job_start + day_num

/-- `HGSimulationState.checkin` (lines 53–86 of `simulation/__init__.py`):
append the checkin event, append the booking tuple under the hotel and room
type, and append the cooldown tuple under the customer's archetype.  Missing
keys raise `KeyError` at the corresponding point, after the mutations already
performed (the returned state carries the partial mutations, as the Python
object would). -/
def checkin (arch : List (String × ArchInfo)) (s : SimState)
    (customer_id hotel_id : ℕ) (room_type : String) (stay_length : ℤ) :
    SimState × Option PyErr :=
  let checkin_event := Event.checkin customer_id hotel_id s.current_day
    (s.current_day + stay_length) room_type
  let s1 := { s with events := s.events ++ [checkin_event] }
  match s1.current_day_num with
  | none => (s1, some PyErr.keyError)
  | some day_num =>
    match lookupA s1.occupied_rooms hotel_id with
    | none => (s1, some PyErr.keyError)
    | some rtmap =>
      match lookupA rtmap room_type with
      | none => (s1, some PyErr.keyError)
      | some _ =>
        let booking : Booking := ⟨customer_id, day_num, stay_length, room_type⟩
        let s2 := { s1 with
          occupied_rooms := updateA s1.occupied_rooms hotel_id
            (fun m => updateA m room_type (fun l => l ++ [booking])) }
        match lookupA s2.customers_by_id customer_id with
        | none => (s2, some PyErr.keyError)
        | some customer_data =>
          match lookupA arch customer_data.type with
          | none => (s2, some PyErr.keyError)
          | some ainfo =>
            match lookupA s2.occupied_customers customer_data.type with
            | none => (s2, some PyErr.keyError)
            | some _ =>
              ({ s2 with
                occupied_customers := updateA s2.occupied_customers
                  customer_data.type (fun l => l ++ [⟨customer_id, hotel_id,
                    s.current_day + stay_length + ainfo.min_gap_days⟩]) },
                none)

/-- `HGSimulationState._checkout_record` (lines 118–131): append the checkout
event, then generate the transaction and append it.  The transaction
generator always raises (`generate_transaction_always_errors`), so the
append of a transaction is never reached. -/
def checkout_record (stateData : List (String × StateTaxes)) (s : SimState)
    (hotel_id : ℕ) (booking : Booking) (skipped_days : ℤ)
    (declineDraw : ℚ) (cardIdx digits : ℕ) : SimState × Option PyErr :=
  let checkout_event := Event.checkout hotel_id booking.customer_id
    s.current_day booking.room_type
  let s1 := { s with events := s.events ++ [checkout_event] }
  match generate_transaction stateData s1.hotels_by_id s1.current_day hotel_id
      booking.customer_id (booking.stay_length - skipped_days)
      booking.room_type declineDraw cardIdx digits with
  | Except.error e => (s1, some e)
  | Except.ok tr =>
    ({ s1 with transactions := s1.transactions ++ [tr] }, none)

/-- `HGSimulationState.checkout_finalize` (lines 108–116): compute
`skipped_days`, then record the checkout. -/
def checkout_finalize (stateData : List (String × StateTaxes))
    (job_start : ℤ) (s : SimState) (hotel_id : ℕ) (booking : Booking)
    (declineDraw : ℚ) (cardIdx digits : ℕ) : SimState × Option PyErr :=
  if s.current_day < job_start + booking.stay_length then
    match s.current_day_num with
    | none => (s, some PyErr.keyError)
    | some dn =>
      checkout_record stateData s hotel_id booking (booking.day_num - dn)
        declineDraw cardIdx digits
  else
    checkout_record stateData s hotel_id booking 0 declineDraw cardIdx digits

/-- C2 (code evaluated at the failing path): every `_checkout_record` call
appends exactly one checkout event, but appends no transaction and raises —
the active `generate_transaction` ends in the `TypeError` of the
`RetailTransaction` constructor call (or a `KeyError` on a missing id), so
the claimed per-checkout `Transaction` record is never created. -/
theorem C2_checkout_record_no_transaction
    (stateData : List (String × StateTaxes)) (s : SimState) (hotel_id : ℕ)
    (booking : Booking) (skipped_days : ℤ) (declineDraw : ℚ)
    (cardIdx digits : ℕ) :
    (checkout_record stateData s hotel_id booking skipped_days declineDraw
      cardIdx digits).1.events
      = s.events ++ [Event.checkout hotel_id booking.customer_id
          s.current_day booking.room_type] ∧
    (checkout_record stateData s hotel_id booking skipped_days declineDraw
      cardIdx digits).1.transactions = s.transactions ∧
    ∃ e, (checkout_record stateData s hotel_id booking skipped_days
      declineDraw cardIdx digits).2 = some e := by
  obtain ⟨e, he⟩ := generate_transaction_always_errors stateData
    ({ s with events := s.events ++ [Event.checkout hotel_id
      booking.customer_id s.current_day booking.room_type] } : SimState).hotels_by_id
    ({ s with events := s.events ++ [Event.checkout hotel_id
      booking.customer_id s.current_day booking.room_type] } : SimState).current_day
    hotel_id booking.customer_id (booking.stay_length - skipped_days)
    booking.room_type declineDraw cardIdx digits
  simp only [checkout_record, he]
  simp

/-- C10: a successful `checkin` changes exactly three state components — it
appends one checkin event, appends one booking tuple at the chosen hotel and
room type (all other hotel and room-type entries unchanged), and appends one
cooldown tuple at the customer's archetype (all other archetype entries
unchanged) — and leaves every other field of the state untouched. -/
theorem C10_checkin_frame (arch : List (String × ArchInfo)) (s : SimState)
    (customer_id hotel_id : ℕ) (room_type : String) (stay_length : ℤ)
    (day_num : ℤ) (rtmap : List (String × List Booking)) (bl : List Booking)
    (customer_data : Customer) (ainfo : ArchInfo) (occl : List Cooldown)
    (hdn : s.current_day_num = some day_num)
    (hor : lookupA s.occupied_rooms hotel_id = some rtmap)
    (hrt : lookupA rtmap room_type = some bl)
    (hcust : lookupA s.customers_by_id customer_id = some customer_data)
    (harch : lookupA arch customer_data.type = some ainfo)
    (hocc : lookupA s.occupied_customers customer_data.type = some occl) :
    (checkin arch s customer_id hotel_id room_type stay_length).2 = none ∧
    (checkin arch s customer_id hotel_id room_type stay_length).1.events
      = s.events ++ [Event.checkin customer_id hotel_id s.current_day
          (s.current_day + stay_length) room_type] ∧
    (∃ m', lookupA (checkin arch s customer_id hotel_id room_type
        stay_length).1.occupied_rooms hotel_id = some m' ∧
      lookupA m' room_type
        = some (bl ++ [⟨customer_id, day_num, stay_length, room_type⟩]) ∧
      (∀ rt', rt' ≠ room_type → lookupA m' rt' = lookupA rtmap rt')) ∧
    (∀ h', h' ≠ hotel_id →
      lookupA (checkin arch s customer_id hotel_id room_type
        stay_length).1.occupied_rooms h' = lookupA s.occupied_rooms h') ∧
    (lookupA (checkin arch s customer_id hotel_id room_type
        stay_length).1.occupied_customers customer_data.type
      = some (occl ++ [⟨customer_id, hotel_id,
          s.current_day + stay_length + ainfo.min_gap_days⟩])) ∧
    (∀ t', t' ≠ customer_data.type →
      lookupA (checkin arch s customer_id hotel_id room_type
        stay_length).1.occupied_customers t'
        = lookupA s.occupied_customers t') ∧
    (checkin arch s customer_id hotel_id room_type stay_length).1.hotels
      = s.hotels ∧
    (checkin arch s customer_id hotel_id room_type stay_length).1.customers
      = s.customers ∧
    (checkin arch s customer_id hotel_id room_type stay_length).1.transactions
      = s.transactions ∧
    (checkin arch s customer_id hotel_id room_type
      stay_length).1.customers_by_archetype = s.customers_by_archetype ∧
    (checkin arch s customer_id hotel_id room_type
      stay_length).1.customers_by_id = s.customers_by_id ∧
    (checkin arch s customer_id hotel_id room_type stay_length).1.hotels_by_id
      = s.hotels_by_id ∧
    (checkin arch s customer_id hotel_id room_type stay_length).1.current_day
      = s.current_day ∧
    (checkin arch s customer_id hotel_id room_type
      stay_length).1.current_day_num = s.current_day_num ∧
    (checkin arch s customer_id hotel_id room_type stay_length).1.days_left
      = s.days_left ∧
    (checkin arch s customer_id hotel_id room_type stay_length).1.day_log
      = s.day_log ∧
    (checkin arch s customer_id hotel_id room_type stay_length).1.last_phase
      = s.last_phase ∧
    (checkin arch s customer_id hotel_id room_type stay_length).1.corporation
      = s.corporation ∧
    (checkin arch s customer_id hotel_id room_type
      stay_length).1.property_distribution = s.property_distribution := by
  have hstep : checkin arch s customer_id hotel_id room_type stay_length
      = ({ s with
          events := s.events ++ [Event.checkin customer_id hotel_id
            s.current_day (s.current_day + stay_length) room_type],
          occupied_rooms := updateA s.occupied_rooms hotel_id
            (fun m => updateA m room_type (fun l => l ++
              [⟨customer_id, day_num, stay_length, room_type⟩])),
          occupied_customers := updateA s.occupied_customers
            customer_data.type (fun l => l ++ [⟨customer_id, hotel_id,
              s.current_day + stay_length + ainfo.min_gap_days⟩]) }, none) := by
    simp only [checkin, hdn, hor, hrt, hcust, harch, hocc]
  rw [hstep]
  refine ⟨rfl, rfl, ?_, ?_, ?_, ?_, rfl, rfl, rfl, rfl, rfl, rfl, rfl, rfl,
    rfl, rfl, rfl, rfl, rfl⟩
  · refine ⟨updateA rtmap room_type (fun l => l ++
      [⟨customer_id, day_num, stay_length, room_type⟩]), ?_, ?_, ?_⟩
    · exact lookupA_updateA_self _ _ _ _ hor
    · exact lookupA_updateA_self _ _ _ _ hrt
    · intro rt' hne
      exact lookupA_updateA_ne _ _ _ _ (fun hcon => hne hcon.symm)
  · intro h' hne
    exact lookupA_updateA_ne _ _ _ _ (fun hcon => hne hcon.symm)
  · exact lookupA_updateA_self _ _ _ _ hocc
  · intro t' hne
    exact lookupA_updateA_ne _ _ _ _ (fun hcon => hne hcon.symm)

/-! ## Day-Simulation Engine (`simulation/day.py`)

Randomness: `DayOracle.onat` supplies integer draws (`r.choice` indices,
stay lengths, card digits), `DayOracle.orat` supplies float draws
(`np.random.normal`, `r.random`), and `DayOracle.osel` supplies an arbitrary
reordering of a list from which both `r.shuffle` (the whole reordering) and
`r.sample(l, k)` (its first `k` elements) are read; the permutation
constraint is the hypothesis `PermOracle` where a theorem needs it.  A
single position counter is threaded through all draws. -/

structure DayOracle where
  onat : ℕ → ℕ
  orat : ℕ → ℚ
  osel : ℕ → List ℕ → List ℕ

/-- The oracle reorderings are permutations, as `r.shuffle`/`r.sample` are. -/
def PermOracle (O : DayOracle) : Prop :=
  ∀ c l, (O.osel c l).Perm l

/-- How a `process_day` call ended: the phase guard of line 86, a crash, the
early `return` of line 161, fuel exhaustion inside
`get_customer_distribution`, or the fall-through end. -/
inductive PDStatus where
  | notReady
  | crashed (e : PyErr)
  | earlyReturn
  | outOfFuel
  | completed
deriving DecidableEq

/-- `sum([room_info.count for room_info in hotel.rooms.values()])`. -/
def totalRooms (h : Hotel) : ℤ :=
  (h.rooms.map (fun p => p.2.count)).sum

/-- The room-count decrement loop of `select_room_type` (lines 37–39):
`room_type_counts[room[3]] -= 1` for every occupied room, `KeyError` when a
booking's room type is not a key. -/
def decCounts : List Booking → List (String × ℤ) →
    Except PyErr (List (String × ℤ))
  | [], cs => Except.ok cs
  | b :: rest, cs =>
    match lookupA cs b.room_type with
    | none => Except.error PyErr.keyError
    | some _ => decCounts rest (updateA cs b.room_type (fun x => x - 1))

/-- `select_room_type` (lines 17–51): subtract the hotel's occupied rooms
from its configured per-type counts, return `none` when no capacity remains,
else pick uniformly among the types with spare capacity. -/
def select_room_type (O : DayOracle) (c : ℕ) (s : SimState) (hotel_id : ℕ) :
    Except PyErr (Option String) :=
  match lookupA s.hotels_by_id hotel_id with
  | none => Except.error PyErr.keyError
  | some hotel =>
    let counts0 : List (String × ℤ) :=
      hotel.rooms.map (fun p => (p.1, p.2.count))
    let all_rooms_occupied : List Booking :=
      match lookupA s.occupied_rooms hotel_id with
      | some m => (m.map (fun p => p.2)).flatten
      | none => []
    match decCounts all_rooms_occupied counts0 with
    | Except.error e => Except.error e
    | Except.ok counts1 =>
      if (counts1.map (fun p => p.2)).sum ≤ 0 then Except.ok none
      else
        let avail := counts1.filter (fun p => decide (0 < p.2))
        match avail with
        | [] => Except.error PyErr.indexError
        | a :: rest =>
          Except.ok (some (((a :: rest).getD
            (O.onat c % (a :: rest).length) a).1))

/-- The float add-loop of `get_customer_distribution` (lines 62–65): add `1`
to a random archetype while the total is short.  Fuelled like the allocator
loops. -/
def gcdAddLoop (desired : ℤ) (O : DayOracle) :
    ℕ → ℕ → List (String × ℚ) → Option (ℕ × List (String × ℚ))
  | fuel, c, ec =>
    if ¬ (ec.map (fun p => p.2)).sum < (desired : ℚ) then some (c, ec)
    else
      match fuel with
      | 0 => none
      | fuel + 1 =>
        match ec.getD (O.onat c % ec.length) ("", 0) with
        | (k, _) => gcdAddLoop desired O fuel (c + 1)
            (updateA ec k (fun v => v + 1))

/-- The float subtract-loop of `get_customer_distribution` (lines 66–69). -/
def gcdSubLoop (desired : ℤ) (O : DayOracle) :
    ℕ → ℕ → List (String × ℚ) → Option (ℕ × List (String × ℚ))
  | fuel, c, ec =>
    if ¬ (ec.map (fun p => p.2)).sum > (desired : ℚ) then some (c, ec)
    else
      match fuel with
      | 0 => none
      | fuel + 1 =>
        match ec.getD (O.onat c % ec.length) ("", 0) with
        | (k, v) =>
          if 0 < v then
            gcdSubLoop desired O fuel (c + 1) (updateA ec k (fun x => x - 1))
          else gcdSubLoop desired O fuel (c + 1) ec

/-- `get_customer_distribution` (lines 53–75): archetype quotas from the
percentage weights, balanced by the two unit loops on floats, then rounded.
Returns the quotas and the advanced oracle position, or `none` when fuel runs
out.  Note the subtract-loop guard `if expected_counts[decre] > 0` can leave
a value in `(-1, 0)` that rounds to `-1`. -/
def get_customer_distribution (arch : List (String × ArchInfo)) (O : DayOracle)
    (fuel c : ℕ) (desired_count : ℤ) :
    Option (List (String × ℤ) × ℕ) :=
  let expected0 : List (String × ℚ) :=
    arch.map (fun p => (p.1, p.2.percentage * (desired_count : ℚ)))
  match gcdAddLoop desired_count O fuel c expected0 with
  | none => none
  | some (c1, ec1) =>
    match gcdSubLoop desired_count O fuel c1 ec1 with
    | none => none
    | some (c2, ec2) =>
      some (ec2.map (fun p => (p.1, pyRound p.2)), c2)

/-- The per-booking checkout calls of the sweep (line 120–122): each booking
runs `checkout_finalize` and counts one checkout; a raised error aborts the
call with the state mutated so far. -/
def processCheckouts (stateData : List (String × StateTaxes)) (job_start : ℤ)
    (O : DayOracle) (hid : ℕ) :
    List Booking → SimState → ℕ → ℕ → SimState × ℕ × ℕ × Option PyErr
  | [], s, c, cnt => (s, c, cnt, none)
  | b :: rest, s, c, cnt =>
    match checkout_finalize stateData job_start s hid b (O.orat c)
        (O.onat (c + 1)) (O.onat (c + 2)) with
    | (s', some e) => (s', c + 3, cnt, some e)
    | (s', none) => processCheckouts stateData job_start O hid rest s' (c + 3)
        (cnt + 1)

/-- The per-room-type body of the checkout sweep (lines 108–122): split this
room type's bookings into arrived and remaining, store the remaining list,
then process the arrived ones. -/
def sweepRts (stateData : List (String × StateTaxes)) (job_start : ℤ)
    (O : DayOracle) (hid : ℕ) :
    List (String × List Booking) → SimState → ℕ → ℕ →
      SimState × ℕ × ℕ × Option PyErr
  | [], s, c, cnt => (s, c, cnt, none)
  | (rt, bookings) :: rest, s, c, cnt =>
    let to_checkout := bookings.filter (fun b =>
      decide (get_datetime_by_day_num job_start b.day_num ≤ s.current_day))
    let remaining := bookings.filter (fun b =>
      decide (s.current_day < get_datetime_by_day_num job_start b.day_num))
    let s1 := { s with
      occupied_rooms := updateA s.occupied_rooms hid
        (fun m => updateA m rt (fun _ => remaining)) }
    match processCheckouts stateData job_start O hid to_checkout s1 c cnt with
    | (s2, c2, cnt2, some e) => (s2, c2, cnt2, some e)
    | (s2, c2, cnt2, none) =>
      sweepRts stateData job_start O hid rest s2 c2 cnt2

/-- The hotel loop of the checkout sweep (line 107): iterate the snapshot of
`occupied_rooms`. -/
def sweepHotels (stateData : List (String × StateTaxes)) (job_start : ℤ)
    (O : DayOracle) :
    List (ℕ × List (String × List Booking)) → SimState → ℕ → ℕ →
      SimState × ℕ × ℕ × Option PyErr
  | [], s, c, cnt => (s, c, cnt, none)
  | (hid, rtmap) :: rest, s, c, cnt =>
    match sweepRts stateData job_start O hid rtmap s c cnt with
    | (s1, c1, cnt1, some e) => (s1, c1, cnt1, some e)
    | (s1, c1, cnt1, none) => sweepHotels stateData job_start O rest s1 c1 cnt1

/-- Step 2 (lines 129–135): drop cooldown entries whose available date has
arrived, counting the reactivations. -/
def expireCooldowns (current_day : ℤ) :
    List (String × List Cooldown) → List (String × List Cooldown) × ℕ
  | [] => ([], 0)
  | (t, l) :: rest =>
    let kept := l.filter (fun cd => decide (current_day < cd.available_date))
    let r0 := expireCooldowns current_day rest
    ((t, kept) :: r0.1, (l.length - kept.length) + r0.2)

/-- The set of currently checked-in customer ids (lines 164–169), one entry
per booking of the flattened ledger. -/
def allBookingCids (s : SimState) : List ℕ :=
  ((s.occupied_rooms.map (fun p => (p.2.map (fun q => q.2)).flatten)).flatten).map
    (fun b => b.customer_id)

/-- The per-archetype candidate pools (lines 172–200): filter out customers
with an active booking, filter out customers in the archetype's cooldown
list, shrink the quota to 20% of the pool when the pool is short, then
sample.  A negative quota surviving to `r.sample` raises `ValueError`. -/
def buildPools (O : DayOracle) (s : SimState) (checkedIn : List ℕ) :
    List (String × ℤ) → ℕ →
      List (String × List ℕ) × ℕ × Option PyErr
  | [], c => ([], c, none)
  | (ct, quota) :: rest, c =>
    match lookupA s.customers_by_archetype ct with
    | none => ([], c, some PyErr.keyError)
    | some grp =>
      let grp1 := grp.filter (fun cid => decide (cid ∉ checkedIn))
      let occIds : List ℕ :=
        match lookupA s.occupied_customers ct with
        | some l => l.map (fun (cd : Cooldown) => cd.customer_id)
        | none => []
      let grp2 := grp1.filter (fun cid => decide (cid ∉ occIds))
      let quota2 : ℤ :=
        if (grp2.length : ℤ) ≤ quota then pyRound ((grp2.length : ℚ) * (2 / 10))
        else quota
      if 0 ≤ quota2 ∧ quota2 ≤ (grp2.length : ℤ) then
        let ids := (O.osel c grp2).take quota2.toNat
        match buildPools O s checkedIn rest (c + 1) with
        | (pools, c2, err) => ((ct, ids) :: pools, c2, err)
      else ([], c, some PyErr.valueError)

/-- The inner check-in loop of one hotel (lines 220–239): pop a candidate
(an empty pool is `continue`), draw a stay length, select a room type (skip
the customer when no room is free), and check in. -/
def checkinLoop (arch : List (String × ArchInfo)) (O : DayOracle) (hid : ℕ) :
    ℕ → SimState → List ℕ → ℕ → ℕ →
      SimState × List ℕ × ℕ × ℕ × Option PyErr
  | 0, s, pool, c, cnt => (s, pool, c, cnt, none)
  | n + 1, s, pool, c, cnt =>
    match pool.getLast? with
    | none => checkinLoop arch O hid n s pool c cnt
    | some this_cid =>
      let pool' := pool.dropLast
      match lookupA s.customers_by_id this_cid with
      | none => (s, pool', c, cnt, some PyErr.keyError)
      | some customer_data =>
        match lookupA arch customer_data.type with
        | none => (s, pool', c, cnt, some PyErr.keyError)
        | some _ =>
          let stay : ℤ := (O.onat c : ℤ)
          match select_room_type O (c + 1) s hid with
          | Except.error e => (s, pool', c + 2, cnt, some e)
          | Except.ok none => checkinLoop arch O hid n s pool' (c + 2) cnt
          | Except.ok (some rt) =>
            match checkin arch s this_cid hid rt stay with
            | (s', some e) => (s', pool', c + 2, cnt, some e)
            | (s', none) => checkinLoop arch O hid n s' pool' (c + 2) (cnt + 1)

/-- The hotel check-in loop (lines 208–239): skip hotels with no demand,
compute how many more bookings the hotel needs, shuffle the pool, and run
the inner loop that many times. -/
def checkinHotels (arch : List (String × ArchInfo)) (O : DayOracle) :
    List (ℕ × ℤ) → SimState → List ℕ → ℕ → ℕ →
      SimState × List ℕ × ℕ × ℕ × Option PyErr
  | [], s, pool, c, cnt => (s, pool, c, cnt, none)
  | (hid, desired) :: rest, s, pool, c, cnt =>
    if desired ≤ 0 then checkinHotels arch O rest s pool c cnt
    else
      match lookupA s.occupied_rooms hid with
      | none => (s, pool, c, cnt, some PyErr.keyError)
      | some rtmap =>
        let currently := (rtmap.map (fun p => (p.2.length : ℤ))).sum
        let needed := desired - currently
        if 0 < needed then
          let pool1 := O.osel c pool
          match checkinLoop arch O hid needed.toNat s pool1 (c + 1) cnt with
          | (s1, pool2, c1, cnt1, some e) => (s1, pool2, c1, cnt1, some e)
          | (s1, pool2, c1, cnt1, none) =>
            checkinHotels arch O rest s1 pool2 c1 cnt1
        else checkinHotels arch O rest s pool c cnt

/-- The body of `process_day` after the phase guard and the day advance
(lines 99–255): the checkout sweep, cooldown expiry, the occupancy draw,
per-hotel demand, the customer draw with the early `return` of line 161, the
check-in assignment, and the day-log append.  `dn` is the advanced day
number and `s1` the state with the advanced day fields. -/
def process_day_body (arch : List (String × ArchInfo))
    (stateData : List (String × StateTaxes)) (job_start : ℤ) (O : DayOracle)
    (fuel : ℕ) (dn : ℤ) (s1 : SimState) : SimState × PDStatus :=
  match sweepHotels stateData job_start O s1.occupied_rooms s1 0 0 with
  | (s2, _, _, some e) => (s2, PDStatus.crashed e)
  | (s2, c2, checkout_count, none) =>
    let expired := expireCooldowns s2.current_day s2.occupied_customers
    let s3 := { s2 with occupied_customers := expired.1 }
    let reactivate_count := expired.2
    let today_occupancy := normalized_random_bounded (O.orat c2) (some 0)
      (some (1 / 2))
    let c3 := c2 + 1
    let hotel_desired := s3.hotels.map (fun h =>
      (h.id, pyRound ((totalRooms h : ℚ) * today_occupancy)))
    let total_customers_needed := (hotel_desired.map (fun p => p.2)).sum
    match get_customer_distribution arch O fuel c3 total_customers_needed with
    | none => (s3, PDStatus.outOfFuel)
    | some (customer_counts, c4) =>
      if total_customers_needed ≤ 0 then (s3, PDStatus.earlyReturn)
      else
        let checkedIn := allBookingCids s3
        match buildPools O s3 checkedIn customer_counts c4 with
        | (_, _, some e) => (s3, PDStatus.crashed e)
        | (pools, c5, none) =>
          let all_customer_ids := (pools.map (fun p => p.2)).flatten
          match checkinHotels arch O hotel_desired s3 all_customer_ids c5 0 with
          | (s4, _, _, _, some e) => (s4, PDStatus.crashed e)
          | (s4, _, _, checkin_count, none) =>
            ({ s4 with day_log := s4.day_log ++
                [⟨dn, s4.current_day, checkin_count, checkout_count,
                  reactivate_count, today_occupancy⟩] },
              PDStatus.completed)

/-- `process_day` (lines 77–255): the guard on phase 3 and the day advance
(lines 85–97), then the body.  The returned state carries all mutations
performed before any raised error, as the Python object would. -/
def process_day (arch : List (String × ArchInfo))
    (stateData : List (String × StateTaxes)) (job_start : ℤ) (O : DayOracle)
    (fuel : ℕ) (s : SimState) : SimState × PDStatus :=
  if (s.last_phase.getD (-1)) < 3 then (s, PDStatus.notReady)
  else
    let dn : ℤ := match s.current_day_num with
      | none => 1
      | some d => d + 1
    process_day_body arch stateData job_start O fuel dn
      { s with current_day_num := some dn, current_day := s.current_day + 1 }

/-! ### Frame lemmas: fields `process_day` sub-steps never touch -/

/-- The state fields that no sub-step of `process_day` after the day advance
ever modifies. -/
def CoreEq (a b : SimState) : Prop :=
  a.day_log = b.day_log ∧ a.hotels = b.hotels ∧
  a.hotels_by_id = b.hotels_by_id ∧ a.customers_by_id = b.customers_by_id ∧
  a.customers_by_archetype = b.customers_by_archetype ∧
  a.current_day = b.current_day ∧ a.current_day_num = b.current_day_num ∧
  a.last_phase = b.last_phase ∧ a.customers = b.customers

theorem coreEq_refl (a : SimState) : CoreEq a a :=
  ⟨rfl, rfl, rfl, rfl, rfl, rfl, rfl, rfl, rfl⟩

theorem coreEq_trans {a b c : SimState} (h1 : CoreEq a b) (h2 : CoreEq b c) :
    CoreEq a c := by
  obtain ⟨x1, x2, x3, x4, x5, x6, x7, x8, x9⟩ := h1
  obtain ⟨y1, y2, y3, y4, y5, y6, y7, y8, y9⟩ := h2
  exact ⟨x1.trans y1, x2.trans y2, x3.trans y3, x4.trans y4, x5.trans y5,
    x6.trans y6, x7.trans y7, x8.trans y8, x9.trans y9⟩

theorem checkout_record_core (stateData : List (String × StateTaxes))
    (s : SimState) (hotel_id : ℕ) (booking : Booking) (skipped_days : ℤ)
    (declineDraw : ℚ) (cardIdx digits : ℕ) :
    CoreEq (checkout_record stateData s hotel_id booking skipped_days
      declineDraw cardIdx digits).1 s ∧
    (checkout_record stateData s hotel_id booking skipped_days declineDraw
      cardIdx digits).1.occupied_rooms = s.occupied_rooms ∧
    (checkout_record stateData s hotel_id booking skipped_days declineDraw
      cardIdx digits).1.occupied_customers = s.occupied_customers := by
  obtain ⟨e, he⟩ := generate_transaction_always_errors stateData
    ({ s with events := s.events ++ [Event.checkout hotel_id
      booking.customer_id s.current_day booking.room_type] } : SimState).hotels_by_id
    ({ s with events := s.events ++ [Event.checkout hotel_id
      booking.customer_id s.current_day booking.room_type] } : SimState).current_day
    hotel_id booking.customer_id (booking.stay_length - skipped_days)
    booking.room_type declineDraw cardIdx digits
  simp only [checkout_record, he]
  simp [CoreEq]

theorem checkout_finalize_core (stateData : List (String × StateTaxes))
    (job_start : ℤ) (s : SimState) (hotel_id : ℕ) (booking : Booking)
    (declineDraw : ℚ) (cardIdx digits : ℕ) :
    CoreEq (checkout_finalize stateData job_start s hotel_id booking
      declineDraw cardIdx digits).1 s ∧
    (checkout_finalize stateData job_start s hotel_id booking declineDraw
      cardIdx digits).1.occupied_rooms = s.occupied_rooms ∧
    (checkout_finalize stateData job_start s hotel_id booking declineDraw
      cardIdx digits).1.occupied_customers = s.occupied_customers := by
  unfold checkout_finalize
  split
  · split
    · exact ⟨coreEq_refl _, rfl, rfl⟩
    · exact checkout_record_core ..
  · exact checkout_record_core ..

theorem processCheckouts_core (stateData : List (String × StateTaxes))
    (job_start : ℤ) (O : DayOracle) (hid : ℕ) :
    ∀ (bs : List Booking) (s : SimState) (c cnt : ℕ),
    CoreEq (processCheckouts stateData job_start O hid bs s c cnt).1 s ∧
    (processCheckouts stateData job_start O hid bs s c cnt).1.occupied_rooms
      = s.occupied_rooms ∧
    (processCheckouts stateData job_start O hid bs s c
      cnt).1.occupied_customers = s.occupied_customers := by
  intro bs
  induction bs with
  | nil => intro s c cnt; exact ⟨coreEq_refl _, rfl, rfl⟩
  | cons b rest ih =>
    intro s c cnt
    unfold processCheckouts
    have hfin := checkout_finalize_core stateData job_start s hid b
      (O.orat c) (O.onat (c + 1)) (O.onat (c + 2))
    cases hcf : checkout_finalize stateData job_start s hid b (O.orat c)
        (O.onat (c + 1)) (O.onat (c + 2)) with
    | mk s' err =>
      rw [hcf] at hfin
      cases err with
      | some e => exact hfin
      | none =>
        obtain ⟨hc1, ho1, hu1⟩ := hfin
        obtain ⟨hc2, ho2, hu2⟩ := ih s' (c + 3) (cnt + 1)
        exact ⟨coreEq_trans hc2 hc1, ho2.trans ho1, hu2.trans hu1⟩

theorem sweepRts_core (stateData : List (String × StateTaxes))
    (job_start : ℤ) (O : DayOracle) (hid : ℕ) :
    ∀ (entries : List (String × List Booking)) (s : SimState) (c cnt : ℕ),
    CoreEq (sweepRts stateData job_start O hid entries s c cnt).1 s ∧
    (sweepRts stateData job_start O hid entries s c cnt).1.occupied_customers
      = s.occupied_customers := by
  intro entries
  induction entries with
  | nil => intro s c cnt; exact ⟨coreEq_refl _, rfl⟩
  | cons e rest ih =>
    intro s c cnt
    obtain ⟨rt, bookings⟩ := e
    simp only [sweepRts]
    set s1 := { s with
      occupied_rooms := updateA s.occupied_rooms hid
        (fun m => updateA m rt (fun _ => bookings.filter (fun b =>
          decide (s.current_day < get_datetime_by_day_num job_start
            b.day_num)))) } with hs1
    have hs1core : CoreEq s1 s := ⟨rfl, rfl, rfl, rfl, rfl, rfl, rfl, rfl, rfl⟩
    have hpc := processCheckouts_core stateData job_start O hid
      (bookings.filter (fun b => decide (get_datetime_by_day_num job_start
        b.day_num ≤ s.current_day))) s1 c cnt
    cases hrun : processCheckouts stateData job_start O hid
        (bookings.filter (fun b => decide (get_datetime_by_day_num job_start
          b.day_num ≤ s.current_day))) s1 c cnt with
    | mk s2 rest2 =>
      rw [hrun] at hpc
      obtain ⟨c2, cnt2, err⟩ := rest2
      obtain ⟨hcc, _, huu⟩ := hpc
      cases err with
      | some e2 => exact ⟨coreEq_trans hcc hs1core, huu⟩
      | none =>
        obtain ⟨hc3, hu3⟩ := ih s2 c2 cnt2
        exact ⟨coreEq_trans hc3 (coreEq_trans hcc hs1core), hu3.trans huu⟩

theorem sweepHotels_core (stateData : List (String × StateTaxes))
    (job_start : ℤ) (O : DayOracle) :
    ∀ (entries : List (ℕ × List (String × List Booking))) (s : SimState)
      (c cnt : ℕ),
    CoreEq (sweepHotels stateData job_start O entries s c cnt).1 s ∧
    (sweepHotels stateData job_start O entries s c cnt).1.occupied_customers
      = s.occupied_customers := by
  intro entries
  induction entries with
  | nil => intro s c cnt; exact ⟨coreEq_refl _, rfl⟩
  | cons e rest ih =>
    intro s c cnt
    obtain ⟨hid, rtmap⟩ := e
    unfold sweepHotels
    have hsw := sweepRts_core stateData job_start O hid rtmap s c cnt
    cases hrun : sweepRts stateData job_start O hid rtmap s c cnt with
    | mk s1 rest1 =>
      rw [hrun] at hsw
      obtain ⟨c1, cnt1, err⟩ := rest1
      obtain ⟨hcc, huu⟩ := hsw
      cases err with
      | some e1 => exact ⟨hcc, huu⟩
      | none =>
        obtain ⟨hc2, hu2⟩ := ih s1 c1 cnt1
        exact ⟨coreEq_trans hc2 hcc, hu2.trans huu⟩

/-- `checkin` never touches the core fields nor the transactions, on any
path. -/
theorem checkin_core (arch : List (String × ArchInfo)) (s : SimState)
    (customer_id hotel_id : ℕ) (room_type : String) (stay_length : ℤ) :
    CoreEq (checkin arch s customer_id hotel_id room_type stay_length).1 s ∧
    (checkin arch s customer_id hotel_id room_type
      stay_length).1.transactions = s.transactions := by
  simp only [checkin]
  split
  · exact ⟨⟨rfl, rfl, rfl, rfl, rfl, rfl, rfl, rfl, rfl⟩, rfl⟩
  · split
    · exact ⟨⟨rfl, rfl, rfl, rfl, rfl, rfl, rfl, rfl, rfl⟩, rfl⟩
    · split
      · exact ⟨⟨rfl, rfl, rfl, rfl, rfl, rfl, rfl, rfl, rfl⟩, rfl⟩
      · split
        · exact ⟨⟨rfl, rfl, rfl, rfl, rfl, rfl, rfl, rfl, rfl⟩, rfl⟩
        · split
          · exact ⟨⟨rfl, rfl, rfl, rfl, rfl, rfl, rfl, rfl, rfl⟩, rfl⟩
          · split
            · exact ⟨⟨rfl, rfl, rfl, rfl, rfl, rfl, rfl, rfl, rfl⟩, rfl⟩
            · exact ⟨⟨rfl, rfl, rfl, rfl, rfl, rfl, rfl, rfl, rfl⟩, rfl⟩

theorem checkinLoop_core (arch : List (String × ArchInfo)) (O : DayOracle)
    (hid : ℕ) :
    ∀ (n : ℕ) (s : SimState) (pool : List ℕ) (c cnt : ℕ) r,
    checkinLoop arch O hid n s pool c cnt = r → CoreEq r.1 s := by
  intro n
  induction n with
  | zero =>
    intro s pool c cnt r hr
    simp only [checkinLoop] at hr
    cases hr
    exact coreEq_refl s
  | succ n ih =>
    intro s pool c cnt r hr
    simp only [checkinLoop] at hr
    cases hl : pool.getLast? with
    | none =>
      rw [hl] at hr
      exact ih s pool c cnt r hr
    | some this_cid =>
      rw [hl] at hr
      simp only at hr
      cases hc : lookupA s.customers_by_id this_cid with
      | none =>
        rw [hc] at hr
        cases hr
        exact coreEq_refl s
      | some customer_data =>
        rw [hc] at hr
        simp only at hr
        cases ha : lookupA arch customer_data.type with
        | none =>
          rw [ha] at hr
          cases hr
          exact coreEq_refl s
        | some a0 =>
          rw [ha] at hr
          simp only at hr
          cases hsrt : select_room_type O (c + 1) s hid with
          | error e =>
            rw [hsrt] at hr
            cases hr
            exact coreEq_refl s
          | ok orb =>
            rw [hsrt] at hr
            cases orb with
            | none => exact ih s pool.dropLast (c + 2) cnt r hr
            | some rt =>
              simp only at hr
              have hci := checkin_core arch s this_cid hid rt (O.onat c : ℤ)
              cases hrun : checkin arch s this_cid hid rt (O.onat c : ℤ) with
              | mk s' err =>
                rw [hrun] at hr hci
                cases err with
                | some e =>
                  cases hr
                  exact hci.1
                | none =>
                  exact coreEq_trans
                    (ih s' pool.dropLast (c + 2) (cnt + 1) r hr) hci.1

theorem checkinHotels_core (arch : List (String × ArchInfo)) (O : DayOracle) :
    ∀ (entries : List (ℕ × ℤ)) (s : SimState) (pool : List ℕ) (c cnt : ℕ) r,
    checkinHotels arch O entries s pool c cnt = r → CoreEq r.1 s := by
  intro entries
  induction entries with
  | nil =>
    intro s pool c cnt r hr
    cases hr
    exact coreEq_refl s
  | cons e rest ih =>
    intro s pool c cnt r hr
    obtain ⟨hid, desired⟩ := e
    unfold checkinHotels at hr
    by_cases hd : desired ≤ 0
    · rw [if_pos hd] at hr
      exact ih s pool c cnt r hr
    · rw [if_neg hd] at hr
      cases hor : lookupA s.occupied_rooms hid with
      | none =>
        rw [hor] at hr
        cases hr
        exact coreEq_refl s
      | some rtmap =>
        rw [hor] at hr
        simp only at hr
        by_cases hn : 0 < desired - (rtmap.map (fun p => (p.2.length : ℤ))).sum
        · rw [if_pos hn] at hr
          cases hrun : checkinLoop arch O hid
              (desired - (rtmap.map (fun p => (p.2.length : ℤ))).sum).toNat s
              (O.osel c pool) (c + 1) cnt with
          | mk s1 rest1 =>
            rw [hrun] at hr
            have hcl := checkinLoop_core arch O hid
              (desired - (rtmap.map (fun p => (p.2.length : ℤ))).sum).toNat s
              (O.osel c pool) (c + 1) cnt _ hrun
            obtain ⟨pool2, c1, cnt1, err⟩ := rest1
            cases err with
            | some e1 =>
              cases hr
              exact hcl
            | none => exact coreEq_trans (ih s1 pool2 c1 cnt1 r hr) hcl
        · rw [if_neg hn] at hr
          exact ih s pool c cnt r hr

/-- Day-log behaviour of the `process_day` body: a run that falls through to
the end appends exactly one entry; every other outcome (crash, early return,
fuel exhaustion) appends none. -/
theorem process_day_body_log (arch : List (String × ArchInfo))
    (stateData : List (String × StateTaxes)) (job_start : ℤ) (O : DayOracle)
    (fuel : ℕ) (dn : ℤ) (s1 : SimState) (r : SimState × PDStatus)
    (hr : process_day_body arch stateData job_start O fuel dn s1 = r) :
    (r.2 = PDStatus.completed →
      ∃ entry, r.1.day_log = s1.day_log ++ [entry]) ∧
    (r.2 ≠ PDStatus.completed → r.1.day_log = s1.day_log) := by
  unfold process_day_body at hr
  split at hr
  next s2 x y e heq =>
    have hcore := (sweepHotels_core stateData job_start O s1.occupied_rooms
      s1 0 0).1
    rw [heq] at hcore
    cases hr
    exact ⟨fun h => by simp at h, fun _ => hcore.1⟩
  next s2 c2 checkout_count heq =>
    have hcore := (sweepHotels_core stateData job_start O s1.occupied_rooms
      s1 0 0).1
    rw [heq] at hcore
    have hlog2 : s2.day_log = s1.day_log := hcore.1
    simp only at hr
    split at hr
    next heq2 =>
      cases hr
      exact ⟨fun h => by simp at h, fun _ => hlog2⟩
    next cc c4 heq2 =>
      split at hr
      · cases hr
        exact ⟨fun h => by simp at h, fun _ => hlog2⟩
      · split at hr
        next xx yy e heq3 =>
          cases hr
          exact ⟨fun h => by simp at h, fun _ => hlog2⟩
        next pools c5 heq3 =>
          split at hr
          next s4 p4 c6 cnt6 e heq4 =>
            have hcore4 := checkinHotels_core arch O _ _ _ _ _ _ heq4
            cases hr
            exact ⟨fun h => by simp at h, fun _ => hcore4.1.trans hlog2⟩
          next s4 p4 c6 checkin_count heq4 =>
            have hcore4 := checkinHotels_core arch O _ _ _ _ _ _ heq4
            have hfin : s4.day_log = s1.day_log := hcore4.1.trans hlog2
            cases hr
            refine ⟨fun _ => ?_, fun h => absurd rfl h⟩
            simp only
            rw [hfin]
            exact ⟨_, rfl⟩


/-- C8, amended: a day-simulation call appends exactly one day-summary entry
when it runs to completion; a call that takes the early no-demand return of
line 161 (or hits the phase guard, an error, or fuel exhaustion) appends
none. -/
theorem C8_day_log_once (arch : List (String × ArchInfo))
    (stateData : List (String × StateTaxes)) (job_start : ℤ) (O : DayOracle)
    (fuel : ℕ) (s : SimState) :
    ((process_day arch stateData job_start O fuel s).2 = PDStatus.completed →
      ∃ entry, (process_day arch stateData job_start O fuel s).1.day_log
        = s.day_log ++ [entry]) ∧
    ((process_day arch stateData job_start O fuel s).2 ≠ PDStatus.completed →
      (process_day arch stateData job_start O fuel s).1.day_log
        = s.day_log) := by
  by_cases hg : (s.last_phase.getD (-1)) < 3
  · simp [process_day, hg]
  · simp only [process_day, if_neg hg]
    exact process_day_body_log arch stateData job_start O fuel
      (match s.current_day_num with | none => 1 | some d => d + 1)
      { s with
        current_day_num := some (match s.current_day_num with
          | none => 1
          | some d => d + 1),
        current_day := s.current_day + 1 } _ rfl

/-- A state in which phase 3 has completed but there are no hotels: every
day-simulation call on it takes the early return and appends nothing. -/
def zeroDemandState : SimState :=
  { last_phase := some 3, corporation := none, property_distribution := none,
    hotels := [], customers := [], transactions := [], events := [],
    occupied_rooms := [], occupied_customers := [],
    customers_by_archetype := [], customers_by_id := [], hotels_by_id := [],
    current_day := 0, current_day_num := none, days_left := 1, day_log := [] }

def zeroDemandOracle : DayOracle :=
  { onat := fun _ => 0, orat := fun _ => 0, osel := fun _ l => l }

/-- Counterexample to C8 as stated: a day-simulation call made after phase 3
has completed (marker at `3`) that appends no day-summary entry at all — the
computed demand is `0`, so the call returns before the day-log append. -/
theorem C8_zero_demand_cex :
    zeroDemandState.last_phase = some 3 ∧
    (process_day [] [] 0 zeroDemandOracle 1 zeroDemandState).2
      = PDStatus.earlyReturn ∧
    (process_day [] [] 0 zeroDemandOracle 1 zeroDemandState).1.day_log
      = [] := by
  refine ⟨rfl, ?_, ?_⟩ <;>
    norm_num [process_day, process_day_body, zeroDemandState, zeroDemandOracle,
      sweepHotels, expireCooldowns, get_customer_distribution, gcdAddLoop,
      gcdSubLoop, totalRooms, pyRound, buildPools, checkinHotels,
      allBookingCids, normalized_random_bounded]

/-! ## Phase pipeline (`simulation/phase0.py`)

`phase1`/`phase3` end with `inst.state['last_phase'] = 1` / `= 3`;
`phase0` has no such assignment. -/

/-- Python `int()` on a float: truncation toward zero. -/
def pyInt (q : ℚ) : ℤ := if q < 0 then -⌊-q⌋ else ⌊q⌋

/-- `phase0` (lines 14–60 of `simulation/phase0.py`): guard on the completion
marker, pick the corporation name (two `r.choice` draws over the noun and
suffix catalogues, kept as indices), draw the total property count
`int(rand(mean, sd, min_val=10))`, split it into per-category counts and top
the resorts up to the total.  The function returns `true` after completing —
without assigning `last_phase`. -/
def phase0 (hotel_count_mean hotel_count_sd : ℚ)
    (resorts_fraction hotels_fraction motels_fraction : ℚ)
    (O : DayOracle) (s : SimState) : SimState × Bool :=
  if (0 : ℤ) ≤ s.last_phase.getD (-1) then (s, false)
  else
    let corporation := (O.onat 0, O.onat 1)
    let total_property_count : ℤ :=
      pyInt (normalized_random_bounded (O.orat 0) (some 10) none)
    let resort_count := pyInt ((total_property_count : ℚ) * resorts_fraction)
    let hotel_count := pyInt ((total_property_count : ℚ) * hotels_fraction)
    let motel_count := pyInt ((total_property_count : ℚ) * motels_fraction)
    let resort_count2 :=
      if resort_count + hotel_count + motel_count < total_property_count then
        resort_count +
          (total_property_count - (resort_count + hotel_count + motel_count))
      else resort_count
    ({ s with
        corporation := some corporation,
        property_distribution :=
          some (resort_count2, hotel_count, motel_count) },
      true)

/-- C5 (code evaluated at the failing path): on a state where phase 0 has
not been recorded as complete, `phase0` completes (returns `true`) but
leaves the last-completed-phase marker unchanged; invoking it again is
therefore not a no-op — the second call completes again and overwrites the
corporation name with fresh draws.  (`phase1` and `phase3` do advance the
marker; `phase0` merely forgets to.) -/
theorem C5_phase0_marker_not_advanced
    (mean sd rf hf mf : ℚ) (O O2 : DayOracle) (s : SimState)
    (h : ¬ (0 : ℤ) ≤ s.last_phase.getD (-1)) :
    (phase0 mean sd rf hf mf O s).2 = true ∧
    (phase0 mean sd rf hf mf O s).1.last_phase = s.last_phase ∧
    (phase0 mean sd rf hf mf O (phase0 mean sd rf hf mf O s).1).2 = true ∧
    (phase0 mean sd rf hf mf O (phase0 mean sd rf hf mf O s).1).1.corporation
      = some (O.onat 0, O.onat 1) ∧
    (phase0 mean sd rf hf mf O2 (phase0 mean sd rf hf mf O s).1).1.corporation
      = some (O2.onat 0, O2.onat 1) := by
  simp only [phase0, if_neg h]
  simp [h]

def freshState : SimState :=
  { last_phase := none, corporation := none, property_distribution := none,
    hotels := [], customers := [], transactions := [], events := [],
    occupied_rooms := [], occupied_customers := [],
    customers_by_archetype := [], customers_by_id := [], hotels_by_id := [],
    current_day := 0, current_day_num := none, days_left := 0, day_log := [] }

def phase0OracleA : DayOracle :=
  { onat := fun _ => 0, orat := fun _ => 0, osel := fun _ l => l }

def phase0OracleB : DayOracle :=
  { onat := fun _ => 1, orat := fun _ => 0, osel := fun _ l => l }

/-- Witness for C5's evidence at a fresh state: the first `phase0` run
completes without advancing the marker, and a repeat run with different
random draws overwrites the corporation name — observably not a no-op. -/
theorem C5_phase0_marker_not_advanced_witness :
    ¬ (0 : ℤ) ≤ freshState.last_phase.getD (-1) ∧
    ((phase0 1 0 0 0 0 phase0OracleA freshState).2 = true ∧
     (phase0 1 0 0 0 0 phase0OracleA freshState).1.last_phase
       = freshState.last_phase ∧
     (phase0 1 0 0 0 0 phase0OracleA
       (phase0 1 0 0 0 0 phase0OracleA freshState).1).2 = true ∧
     (phase0 1 0 0 0 0 phase0OracleA
       (phase0 1 0 0 0 0 phase0OracleA freshState).1).1.corporation
       = some (phase0OracleA.onat 0, phase0OracleA.onat 1) ∧
     (phase0 1 0 0 0 0 phase0OracleB
       (phase0 1 0 0 0 0 phase0OracleA freshState).1).1.corporation
       = some (phase0OracleB.onat 0, phase0OracleB.onat 1)) ∧
    some (phase0OracleB.onat 0, phase0OracleB.onat 1)
      ≠ some (phase0OracleA.onat 0, phase0OracleA.onat 1) :=
  ⟨by decide,
   C5_phase0_marker_not_advanced 1 0 0 0 0 phase0OracleA phase0OracleB
     freshState (by decide),
   by decide⟩

/-- Sample data for the check-in frame witness: one hotel slot, one
archetype, one customer. -/
def exArch : List (String × ArchInfo) := [("business", ⟨1 / 2, 14⟩)]

def exState : SimState :=
  { last_phase := some 3, corporation := none, property_distribution := none,
    hotels := [], customers := [], transactions := [], events := [],
    occupied_rooms := [(1, [("1kn", [])])],
    occupied_customers := [("business", [])],
    customers_by_archetype := [("business", [7])],
    customers_by_id := [(7, ⟨7, "business"⟩)],
    hotels_by_id := [], current_day := 10, current_day_num := some 4,
    days_left := 0, day_log := [] }

/-- Witness for C10 at a concrete state: the check-in succeeds and appends
exactly the expected event. -/
theorem C10_checkin_frame_witness :
    (checkin exArch exState 7 1 "1kn" 2).2 = none ∧
    (checkin exArch exState 7 1 "1kn" 2).1.events
      = exState.events ++ [Event.checkin 7 1 10 12 "1kn"] :=
  ⟨(C10_checkin_frame exArch exState 7 1 "1kn" 2 4 [("1kn", [])] []
      ⟨7, "business"⟩ ⟨1 / 2, 14⟩ [] rfl rfl rfl rfl rfl rfl).1,
   (C10_checkin_frame exArch exState 7 1 "1kn" 2 4 [("1kn", [])] []
      ⟨7, "business"⟩ ⟨1 / 2, 14⟩ [] rfl rfl rfl rfl rfl rfl).2.1⟩

/-! ### Association-list key lemmas for the ledger invariants -/

def keysOf {α β : Type} (l : List (α × β)) : List α := l.map (fun p => p.1)

theorem updateA_keysOf {α β : Type} [DecidableEq α]
    (l : List (α × β)) (k : α) (f : β → β) :
    keysOf (updateA l k f) = keysOf l := by
  induction l with
  | nil => rfl
  | cons hd tl ih =>
    by_cases hk : hd.1 = k <;> simp [keysOf, updateA, hk] <;>
      simpa [keysOf] using ih

theorem lookupA_isSome_of_mem_keys {α β : Type} [DecidableEq α]
    (l : List (α × β)) (k : α) (h : k ∈ keysOf l) :
    ∃ v, lookupA l k = some v := by
  induction l with
  | nil => simp [keysOf] at h
  | cons hd tl ih =>
    by_cases hk : hd.1 = k
    · exact ⟨hd.2, by simp [lookupA, hk]⟩
    · have : k ∈ keysOf tl := by
        simp [keysOf] at h ⊢
        rcases h with h | h
        · exact absurd h.symm hk
        · exact h
      obtain ⟨v, hv⟩ := ih this
      exact ⟨v, by simp [lookupA, hk, hv]⟩

theorem lookupA_mem {α β : Type} [DecidableEq α]
    (l : List (α × β)) (k : α) (v : β) (h : lookupA l k = some v) :
    (k, v) ∈ l := by
  induction l with
  | nil => simp [lookupA] at h
  | cons hd tl ih =>
    by_cases hk : hd.1 = k
    · simp [lookupA, hk] at h
      have hkv : (k, v) = hd := by
        rw [← hk, ← h]
      rw [hkv]
      exact List.mem_cons_self _ _
    · simp [lookupA, hk] at h
      exact List.mem_cons_of_mem _ (ih h)

theorem mem_lookupA_of_nodup {α β : Type} [DecidableEq α]
    (l : List (α × β)) (k : α) (v : β) (hnd : (keysOf l).Nodup)
    (h : (k, v) ∈ l) : lookupA l k = some v := by
  induction l with
  | nil => simp at h
  | cons hd tl ih =>
    have hnd' : hd.1 ∉ keysOf tl ∧ (keysOf tl).Nodup := by
      rw [keysOf, List.map_cons] at hnd
      exact List.nodup_cons.mp hnd
    rcases List.mem_cons.mp h with h | h
    · rw [← h]
      simp [lookupA]
    · have hmemk : k ∈ keysOf tl := List.mem_map.mpr ⟨(k, v), h, rfl⟩
      have hk : hd.1 ≠ k := by
        intro hcon
        exact (hcon ▸ hnd'.1) hmemk
      simp [lookupA, hk]
      exact ih hnd'.2 h

theorem lookupA_map_snd {α β γ : Type} [DecidableEq α]
    (l : List (α × β)) (f : β → γ) (k : α) :
    lookupA (l.map (fun p => (p.1, f p.2))) k = (lookupA l k).map f := by
  induction l with
  | nil => rfl
  | cons hd tl ih =>
    by_cases hk : hd.1 = k <;> simp [lookupA, hk, ih]

/-! ### The occupancy invariant (claim C6) -/

/-- The per-room-type booking ledger:
`inst.state['occupied_rooms'][hotel_id][room_type]` (empty when a key is
absent). -/
def ledger (s : SimState) (hid : ℕ) (rt : String) : List Booking :=
  match lookupA s.occupied_rooms hid with
  | some m =>
    match lookupA m rt with
    | some l => l
    | none => []
  | none => []

/-- The flattened per-hotel occupancy list read by `select_room_type`. -/
def occupiedFlat (s : SimState) (hid : ℕ) : List Booking :=
  match lookupA s.occupied_rooms hid with
  | some m => (m.map (fun p => p.2)).flatten
  | none => []

/-- Key-consistency: a booking stored under a room-type key carries that room
type (true of states built by `phase3` and maintained by `checkin`). -/
def RoomsKeyed (s : SimState) : Prop :=
  ∀ hid rt, ∀ b ∈ ledger s hid rt, b.room_type = rt

/-- The ledger keys are dict keys: unique at both levels. -/
def ORNodup (s : SimState) : Prop :=
  (keysOf s.occupied_rooms).Nodup ∧
  ∀ p ∈ s.occupied_rooms, (keysOf p.2).Nodup

/-- A hotel's room-type table has unique keys (it is a Python dict). -/
def HotelRoomsNodup (s : SimState) : Prop :=
  ∀ hid hotel, lookupA s.hotels_by_id hid = some hotel →
    (keysOf hotel.rooms).Nodup

/-- C6's invariant: no (hotel, room type) ledger ever exceeds the room
type's configured count. -/
def OccInv (s : SimState) : Prop :=
  ∀ hid hotel, lookupA s.hotels_by_id hid = some hotel →
    ∀ rt ri, lookupA hotel.rooms rt = some ri →
      ((ledger s hid rt).length : ℤ) ≤ ri.count

/-- The two-level key structure of the room ledgers. -/
def shapeOR (x : List (ℕ × List (String × List Booking))) :
    List (ℕ × List String) :=
  x.map (fun p => (p.1, keysOf p.2))

theorem keysOf_of_shapeOR {a b : List (ℕ × List (String × List Booking))}
    (h : shapeOR a = shapeOR b) : keysOf a = keysOf b := by
  have ha : keysOf a = (shapeOR a).map (fun p => p.1) := by
    simp [keysOf, shapeOR]
  have hb : keysOf b = (shapeOR b).map (fun p => p.1) := by
    simp [keysOf, shapeOR]
  rw [ha, hb, h]

theorem lookupA_eq_none_of_not_mem_keys {α β : Type} [DecidableEq α]
    (l : List (α × β)) (k : α) (h : k ∉ keysOf l) : lookupA l k = none := by
  induction l with
  | nil => rfl
  | cons hd tl ih =>
    have hk : hd.1 ≠ k := by
      intro hcon
      exact h (by simp [keysOf, hcon])
    simp [lookupA, hk]
    exact ih (fun hcon => h (by simp [keysOf] at hcon ⊢; right; exact hcon))

theorem shapeOR_lookup_keys {a b : List (ℕ × List (String × List Booking))}
    (h : shapeOR a = shapeOR b) (k : ℕ) (va vb : List (String × List Booking))
    (ha : lookupA a k = some va) (hb : lookupA b k = some vb) :
    keysOf va = keysOf vb := by
  induction a generalizing b with
  | nil => simp [lookupA] at ha
  | cons hda tla ih =>
    cases b with
    | nil => simp [lookupA] at hb
    | cons hdb tlb =>
      simp only [shapeOR, List.map_cons, List.cons.injEq] at h
      obtain ⟨hhead, htail⟩ := h
      by_cases hk : hda.1 = k
      · have hkb : hdb.1 = k := by
          have := congrArg Prod.fst hhead
          simp at this
          rw [← this, hk]
        simp [lookupA, hk] at ha
        simp [lookupA, hkb] at hb
        have := congrArg Prod.snd hhead
        simp at this
        rw [← ha, ← hb]
        exact this
      · have hkb : hdb.1 ≠ k := by
          have := congrArg Prod.fst hhead
          simp at this
          rw [← this]
          exact hk
        simp [lookupA, hk] at ha
        simp [lookupA, hkb] at hb
        exact ih htail ha hb

theorem shapeOR_ORNodup {a b : SimState}
    (h : shapeOR a.occupied_rooms = shapeOR b.occupied_rooms)
    (hb : ORNodup b) : ORNodup a := by
  constructor
  · rw [keysOf_of_shapeOR h]
    exact hb.1
  · intro p hp
    have hmem : (p.1, keysOf p.2) ∈ shapeOR b.occupied_rooms := by
      rw [← h]
      exact List.mem_map.mpr ⟨p, hp, rfl⟩
    obtain ⟨q, hq, hqe⟩ := List.mem_map.mp hmem
    have : keysOf p.2 = keysOf q.2 := by
      have := congrArg Prod.snd hqe
      simpa using this.symm
    rw [this]
    exact hb.2 q hq

theorem shapeOR_updateA (or : List (ℕ × List (String × List Booking)))
    (hid : ℕ) (g : List (String × List Booking) → List (String × List Booking))
    (hg : ∀ m, keysOf (g m) = keysOf m) :
    shapeOR (updateA or hid g) = shapeOR or := by
  induction or with
  | nil => rfl
  | cons hd tl ih =>
    by_cases hk : hd.1 = hid <;> simp [shapeOR, updateA, hk, hg] <;>
      simpa [shapeOR] using ih

/-- The ledger after replacing the list at `(hid, rt)`. -/
theorem ledger_update_self (s : SimState) (hid : ℕ) (rt : String)
    (m : List (String × List Booking)) (l : List Booking)
    (f : List Booking → List Booking)
    (hm : lookupA s.occupied_rooms hid = some m) (hl : lookupA m rt = some l) :
    ledger { s with occupied_rooms := updateA s.occupied_rooms hid (fun m0 => updateA m0 rt f) } hid rt = f l := by
  simp only [ledger, lookupA_updateA_self _ _ _ _ hm,
    lookupA_updateA_self _ _ _ _ hl]

/-- The ledger at any other `(hotel, room type)` pair is untouched by such an
update. -/
theorem ledger_update_other (s : SimState) (hid : ℕ) (rt : String)
    (f : List Booking → List Booking) (hid' : ℕ) (rt' : String)
    (h : ¬ (hid' = hid ∧ rt' = rt)) :
    ledger { s with occupied_rooms := updateA s.occupied_rooms hid (fun m0 => updateA m0 rt f) } hid' rt' = ledger s hid' rt' := by
  by_cases hh : hid' = hid
  · subst hh
    cases hm : lookupA s.occupied_rooms hid' with
    | none =>
      have hnk : hid' ∉ keysOf s.occupied_rooms := by
        intro hcon
        obtain ⟨v, hv⟩ := lookupA_isSome_of_mem_keys _ _ hcon
        rw [hv] at hm
        exact Option.noConfusion hm
      have h2 : lookupA (updateA s.occupied_rooms hid'
          (fun m0 => updateA m0 rt f)) hid' = none := by
        apply lookupA_eq_none_of_not_mem_keys
        rw [updateA_keysOf]
        exact hnk
      simp only [ledger, h2, hm]
    | some m =>
      have hrt : rt' ≠ rt := fun hcon => h ⟨rfl, hcon⟩
      simp only [ledger, lookupA_updateA_self _ _ _ _ hm, hm,
        lookupA_updateA_ne _ _ _ _ (fun hcon => hrt hcon.symm)]
  · simp only [ledger,
      lookupA_updateA_ne _ _ _ _ (fun hcon => hh hcon.symm)]

theorem ledger_congr {a b : SimState}
    (h : a.occupied_rooms = b.occupied_rooms) (hid : ℕ) (rt : String) :
    ledger a hid rt = ledger b hid rt := by
  unfold ledger
  rw [h]

theorem ledger_eq_of_lookup {s : SimState} {hid : ℕ} {rt : String}
    {m : List (String × List Booking)} {l : List Booking}
    (hm : lookupA s.occupied_rooms hid = some m) (hl : lookupA m rt = some l) :
    ledger s hid rt = l := by
  simp [ledger, hm, hl]

/-- The bundled well-formedness of the room ledgers that `process_day`
preserves (claim C6). -/
def OccWF (s : SimState) : Prop :=
  RoomsKeyed s ∧ ORNodup s ∧ HotelRoomsNodup s ∧ OccInv s

theorem occWF_congr {a b : SimState}
    (ho : a.occupied_rooms = b.occupied_rooms)
    (hh : a.hotels_by_id = b.hotels_by_id) (h : OccWF b) : OccWF a := by
  obtain ⟨hk, hn, hr, hi⟩ := h
  refine ⟨?_, ?_, ?_, ?_⟩
  · intro hid rt b hb
    rw [ledger_congr ho] at hb
    exact hk hid rt b hb
  · unfold ORNodup
    rw [ho]
    exact hn
  · unfold HotelRoomsNodup
    rw [hh]
    exact hr
  · intro hid hotel hhot rt ri hri
    rw [hh] at hhot
    rw [ledger_congr ho]
    exact hi hid hotel hhot rt ri hri

/-- `d[k] = f d[k]` on a dict lacking the key is a no-op in this embedding. -/
theorem updateA_not_mem {α β : Type} [DecidableEq α]
    (l : List (α × β)) (k : α) (f : β → β) (h : k ∉ keysOf l) :
    updateA l k f = l := by
  induction l with
  | nil => rfl
  | cons hd tl ih =>
    have hk : hd.1 ≠ k := fun hcon => h (by simp [keysOf, hcon])
    simp [updateA, hk]
    exact ih (fun hcon => h (by simp [keysOf] at hcon ⊢; right; exact hcon))

/-- With unique keys, an update splits the list around the single entry for
the key. -/
theorem updateA_decomp {α β : Type} [DecidableEq α]
    (f : β → β) :
    ∀ (l : List (α × β)) (k : α) (v : β), (keysOf l).Nodup →
    lookupA l k = some v →
    ∃ pre post, l = pre ++ (k, v) :: post ∧
      updateA l k f = pre ++ (k, f v) :: post := by
  intro l
  induction l with
  | nil => intro k v _ hv; simp [lookupA] at hv
  | cons hd tl ih =>
    intro k v hnd hv
    by_cases hk : hd.1 = k
    · simp only [lookupA, if_pos hk] at hv
      obtain rfl : hd.2 = v := Option.some.inj hv
      have hnot : k ∉ keysOf tl := by
        intro hcon
        simp only [keysOf, List.mem_map] at hcon
        obtain ⟨p, hp, hp1⟩ := hcon
        simp only [keysOf, List.map_cons, List.nodup_cons, List.mem_map]
          at hnd
        exact hnd.1 ⟨p, hp, hp1.trans hk.symm⟩
      refine ⟨[], tl, ?_, ?_⟩
      · rw [List.nil_append]
        have : hd = (k, hd.2) := Prod.ext hk rfl
        rw [← this]
      · rw [List.nil_append]
        show (if hd.1 = k then (hd.1, f hd.2) else hd) :: updateA tl k f
          = (k, f hd.2) :: tl
        rw [if_pos hk, hk, updateA_not_mem tl k f hnot]
    · simp only [lookupA, if_neg hk] at hv
      have hnd' : (keysOf tl).Nodup := by
        simp [keysOf] at hnd ⊢
        exact hnd.2
      obtain ⟨pre, post, h1, h2⟩ := ih k v hnd' hv
      exact ⟨hd :: pre, post, by simp [h1], by simp [updateA, hk, h2]⟩

theorem mem_updateA {α β : Type} [DecidableEq α] :
    ∀ (l : List (α × β)) (k : α) (f : β → β) (p : α × β),
    p ∈ updateA l k f → ∃ q ∈ l, p.1 = q.1 ∧ (p.2 = q.2 ∨ p.2 = f q.2) := by
  intro l
  induction l with
  | nil => intro k f p hp; simp [updateA] at hp
  | cons hd tl ih =>
    intro k f p hp
    simp only [updateA, List.mem_cons] at hp
    rcases hp with hp | hp
    · by_cases hk : hd.1 = k
      · rw [if_pos hk] at hp
        exact ⟨hd, List.mem_cons_self _ _, by simp [hp]⟩
      · rw [if_neg hk] at hp
        exact ⟨hd, List.mem_cons_self _ _, by simp [hp]⟩
    · obtain ⟨q, hq, h1, h2⟩ := ih k f p hp
      exact ⟨q, List.mem_cons_of_mem _ hq, h1, h2⟩

/-! ### The flat list of booked customer ids (claim C7) -/

/-- The customer ids of one hotel's room-type table, flattened. -/
def cidsOfCell (m : List (String × List Booking)) : List ℕ :=
  ((m.map (fun q => q.2)).flatten).map (fun b => b.customer_id)

/-- The customer ids of every booking in a room-ledger structure. -/
def cidsOfOR (or : List (ℕ × List (String × List Booking))) : List ℕ :=
  ((or.map (fun p => (p.2.map (fun q => q.2)).flatten)).flatten).map
    (fun b => b.customer_id)

theorem allBookingCids_eq (s : SimState) :
    allBookingCids s = cidsOfOR s.occupied_rooms := rfl

theorem cidsOfOR_append (a b : List (ℕ × List (String × List Booking))) :
    cidsOfOR (a ++ b) = cidsOfOR a ++ cidsOfOR b := by
  simp [cidsOfOR]

theorem cidsOfOR_cons (p : ℕ × List (String × List Booking))
    (rest : List (ℕ × List (String × List Booking))) :
    cidsOfOR (p :: rest) = cidsOfCell p.2 ++ cidsOfOR rest := by
  simp [cidsOfOR, cidsOfCell]

theorem cidsOfCell_append (a b : List (String × List Booking)) :
    cidsOfCell (a ++ b) = cidsOfCell a ++ cidsOfCell b := by
  simp [cidsOfCell]

theorem cidsOfCell_cons (q : String × List Booking)
    (rest : List (String × List Booking)) :
    cidsOfCell (q :: rest) = q.2.map (fun b => b.customer_id) ++
      cidsOfCell rest := by
  simp [cidsOfCell]

/-- Replacing one booking list by a sublist of itself only thins the flat
customer-id list (the checkout sweep's filtering). -/
theorem cids_update_sublist (or : List (ℕ × List (String × List Booking)))
    (hid : ℕ) (rt : String) (m : List (String × List Booking))
    (l l' : List Booking)
    (hnd : (keysOf or).Nodup) (hndm : (keysOf m).Nodup)
    (hm : lookupA or hid = some m) (hl : lookupA m rt = some l)
    (hsub : l'.Sublist l) :
    (cidsOfOR (updateA or hid
      (fun m0 => updateA m0 rt (fun _ => l')))).Sublist (cidsOfOR or) := by
  obtain ⟨pre, post, he1, he2⟩ :=
    updateA_decomp (fun m0 => updateA m0 rt (fun _ => l')) or hid m hnd hm
  obtain ⟨preI, postI, hi1, hi2⟩ :=
    updateA_decomp (fun _ => l') m rt l hndm hl
  rw [he2, hi2]
  conv =>
    rhs
    rw [he1, hi1]
  rw [cidsOfOR_append, cidsOfOR_append, cidsOfOR_cons, cidsOfOR_cons]
  refine (List.Sublist.refl _).append (List.Sublist.append ?_
    (List.Sublist.refl _))
  simp only [cidsOfCell_append, cidsOfCell_cons]
  exact (List.Sublist.refl _).append
    (List.Sublist.append (hsub.map _) (List.Sublist.refl _))

/-- Appending one booking at an existing `(hotel, room type)` key inserts its
customer id once into the flat customer-id list, up to permutation. -/
theorem cids_update_append (or : List (ℕ × List (String × List Booking)))
    (hid : ℕ) (rt : String) (m : List (String × List Booking))
    (l : List Booking) (bk : Booking)
    (hnd : (keysOf or).Nodup) (hndm : (keysOf m).Nodup)
    (hm : lookupA or hid = some m) (hl : lookupA m rt = some l) :
    List.Perm (cidsOfOR (updateA or hid
        (fun m0 => updateA m0 rt (fun l0 => l0 ++ [bk]))))
      (bk.customer_id :: cidsOfOR or) := by
  obtain ⟨pre, post, he1, he2⟩ :=
    updateA_decomp (fun m0 => updateA m0 rt (fun l0 => l0 ++ [bk])) or hid m
      hnd hm
  obtain ⟨preI, postI, hi1, hi2⟩ :=
    updateA_decomp (fun l0 => l0 ++ [bk]) m rt l hndm hl
  rw [he2, hi2]
  conv =>
    rhs
    rw [he1, hi1]
  rw [cidsOfOR_append, cidsOfOR_cons]
  simp only [cidsOfCell_append, cidsOfCell_cons, List.map_append,
    List.map_cons, List.map_nil]
  have hshape :
      cidsOfOR pre ++ ((cidsOfCell preI ++ ((l.map (fun b => b.customer_id) ++
          [bk.customer_id]) ++ cidsOfCell postI)) ++ cidsOfOR post)
        = (cidsOfOR pre ++ cidsOfCell preI ++ l.map (fun b => b.customer_id))
          ++ bk.customer_id :: (cidsOfCell postI ++ cidsOfOR post) := by
    simp [List.append_assoc]
  rw [hshape]
  refine List.perm_middle.trans (List.Perm.cons _ ?_)
  rw [cidsOfOR_append, cidsOfOR_cons, cidsOfCell_append, cidsOfCell_cons]
  simp [List.append_assoc]

/-! ### The checkout sweep only thins the ledgers -/

/-- One hotel's sweep (`sweepRts`) shrinks every ledger to a sublist of
itself, keeps the two-level key structure, only thins the flat customer-id
list, and leaves the ledgers of other hotels untouched. -/
theorem sweepRts_occ (stateData : List (String × StateTaxes)) (job_start : ℤ)
    (O : DayOracle) (hid : ℕ) :
    ∀ (entries : List (String × List Booking)) (s : SimState) (c cnt : ℕ)
      (m : List (String × List Booking)),
    ORNodup s → lookupA s.occupied_rooms hid = some m →
    (keysOf entries).Nodup → (∀ p ∈ entries, lookupA m p.1 = some p.2) →
    (∀ h2 r2, (ledger (sweepRts stateData job_start O hid entries s c
        cnt).1 h2 r2).Sublist (ledger s h2 r2)) ∧
    shapeOR (sweepRts stateData job_start O hid entries s c
        cnt).1.occupied_rooms = shapeOR s.occupied_rooms ∧
    (cidsOfOR (sweepRts stateData job_start O hid entries s c
        cnt).1.occupied_rooms).Sublist (cidsOfOR s.occupied_rooms) ∧
    (∀ h2, h2 ≠ hid → lookupA (sweepRts stateData job_start O hid entries s c
        cnt).1.occupied_rooms h2 = lookupA s.occupied_rooms h2) := by
  intro entries
  induction entries with
  | nil =>
    intro s c cnt m _ _ _ _
    exact ⟨fun h2 r2 => List.Sublist.refl _, rfl, List.Sublist.refl _,
      fun h2 _ => rfl⟩
  | cons e rest ih =>
    intro s c cnt m hOR hm hke hall
    obtain ⟨rt, bookings⟩ := e
    have hl : lookupA m rt = some bookings := hall _ (List.mem_cons_self _ _)
    have hndm : (keysOf m).Nodup := hOR.2 (hid, m) (lookupA_mem _ _ _ hm)
    simp only [sweepRts]
    set remaining := bookings.filter (fun b =>
      decide (s.current_day < get_datetime_by_day_num job_start b.day_num))
      with hrem
    set s1 := { s with
      occupied_rooms := updateA s.occupied_rooms hid
        (fun m0 => updateA m0 rt (fun _ => remaining)) } with hs1
    have hled1 : ∀ h2 r2, (ledger s1 h2 r2).Sublist (ledger s h2 r2) := by
      intro h2 r2
      by_cases hcase : h2 = hid ∧ r2 = rt
      · obtain ⟨rfl, rfl⟩ := hcase
        rw [hs1]
        rw [ledger_update_self s h2 r2 m bookings _ hm hl,
          ledger_eq_of_lookup hm hl]
        exact List.filter_sublist _
      · rw [hs1, ledger_update_other s hid rt _ h2 r2 hcase]
    have hshape1 : shapeOR s1.occupied_rooms = shapeOR s.occupied_rooms := by
      rw [hs1]
      exact shapeOR_updateA _ _ _ (fun m0 => updateA_keysOf m0 rt _)
    have hcids1 : (cidsOfOR s1.occupied_rooms).Sublist
        (cidsOfOR s.occupied_rooms) := by
      rw [hs1]
      exact cids_update_sublist _ hid rt m bookings remaining hOR.1 hndm hm hl
        (List.filter_sublist _)
    have hlook1 : ∀ h2, h2 ≠ hid →
        lookupA s1.occupied_rooms h2 = lookupA s.occupied_rooms h2 := by
      intro h2 hne
      rw [hs1]
      exact lookupA_updateA_ne _ _ _ _ (fun hcon => hne hcon.symm)
    have hcur1 : s1.current_day = s.current_day := rfl
    have hpc := processCheckouts_core stateData job_start O hid
      (bookings.filter (fun b => decide (get_datetime_by_day_num job_start
        b.day_num ≤ s.current_day))) s1 c cnt
    cases hrun : processCheckouts stateData job_start O hid
        (bookings.filter (fun b => decide (get_datetime_by_day_num job_start
          b.day_num ≤ s.current_day))) s1 c cnt with
    | mk s2 rest2 =>
      rw [hrun] at hpc
      obtain ⟨c2, cnt2, err⟩ := rest2
      obtain ⟨hcc, hor2, _⟩ := hpc
      have hled2 : ∀ h2 r2, (ledger s2 h2 r2).Sublist (ledger s h2 r2) :=
        fun h2 r2 => (ledger_congr hor2 h2 r2) ▸ hled1 h2 r2
      have hshape2 : shapeOR s2.occupied_rooms = shapeOR s.occupied_rooms :=
        by rw [hor2]; exact hshape1
      have hcids2 : (cidsOfOR s2.occupied_rooms).Sublist
          (cidsOfOR s.occupied_rooms) := by rw [hor2]; exact hcids1
      have hlook2 : ∀ h2, h2 ≠ hid →
          lookupA s2.occupied_rooms h2 = lookupA s.occupied_rooms h2 := by
        intro h2 hne
        rw [hor2]
        exact hlook1 h2 hne
      cases err with
      | some e2 => exact ⟨hled2, hshape2, hcids2, hlook2⟩
      | none =>
        have hOR2 : ORNodup s2 := shapeOR_ORNodup hshape2 hOR
        have hm2 : lookupA s2.occupied_rooms hid
            = some (updateA m rt (fun _ => remaining)) := by
          rw [hor2, hs1]
          exact lookupA_updateA_self _ _ _ _ hm
        have hke' : (keysOf rest).Nodup := by
          rw [keysOf, List.map_cons] at hke
          exact (List.nodup_cons.mp hke).2
        have hrtnot : rt ∉ keysOf rest := by
          rw [keysOf, List.map_cons] at hke
          exact (List.nodup_cons.mp hke).1
        have hall2 : ∀ p ∈ rest,
            lookupA (updateA m rt (fun _ => remaining)) p.1 = some p.2 := by
          intro p hp
          have hpne : rt ≠ p.1 := by
            intro hcon
            exact hrtnot (hcon ▸ List.mem_map.mpr ⟨p, hp, rfl⟩)
          rw [lookupA_updateA_ne _ _ _ _ hpne]
          exact hall p (List.mem_cons_of_mem _ hp)
        obtain ⟨ihl, ihs, ihc, ihk⟩ := ih s2 c2 cnt2
          (updateA m rt (fun _ => remaining)) hOR2 hm2 hke' hall2
        refine ⟨fun h2 r2 => (ihl h2 r2).trans (hled2 h2 r2),
          ihs.trans hshape2, ihc.trans hcids2, fun h2 hne =>
            (ihk h2 hne).trans (hlook2 h2 hne)⟩

/-- The full checkout sweep (`sweepHotels`, iterating the snapshot of
`occupied_rooms`) shrinks every ledger to a sublist of itself, keeps the
key structure, and only thins the flat customer-id list. -/
theorem sweepHotels_occ (stateData : List (String × StateTaxes))
    (job_start : ℤ) (O : DayOracle) :
    ∀ (entries : List (ℕ × List (String × List Booking))) (s : SimState)
      (c cnt : ℕ),
    ORNodup s → (keysOf entries).Nodup →
    (∀ p ∈ entries, lookupA s.occupied_rooms p.1 = some p.2) →
    (∀ h2 r2, (ledger (sweepHotels stateData job_start O entries s c
        cnt).1 h2 r2).Sublist (ledger s h2 r2)) ∧
    shapeOR (sweepHotels stateData job_start O entries s c
        cnt).1.occupied_rooms = shapeOR s.occupied_rooms ∧
    (cidsOfOR (sweepHotels stateData job_start O entries s c
        cnt).1.occupied_rooms).Sublist (cidsOfOR s.occupied_rooms) := by
  intro entries
  induction entries with
  | nil =>
    intro s c cnt _ _ _
    exact ⟨fun h2 r2 => List.Sublist.refl _, rfl, List.Sublist.refl _⟩
  | cons e rest ih =>
    intro s c cnt hOR hke hall
    obtain ⟨hid, rtmap⟩ := e
    have hm : lookupA s.occupied_rooms hid = some rtmap :=
      hall _ (List.mem_cons_self _ _)
    have hndm : (keysOf rtmap).Nodup := hOR.2 (hid, rtmap)
      (lookupA_mem _ _ _ hm)
    have hallin : ∀ p ∈ rtmap, lookupA rtmap p.1 = some p.2 := by
      intro p hp
      have : ((p.1, p.2) : String × List Booking) ∈ rtmap := by
        cases p
        exact hp
      exact mem_lookupA_of_nodup _ _ _ hndm this
    unfold sweepHotels
    obtain ⟨hled1, hshape1, hcids1, hlook1⟩ :=
      sweepRts_occ stateData job_start O hid rtmap s c cnt rtmap hOR hm hndm
        hallin
    cases hrun : sweepRts stateData job_start O hid rtmap s c cnt with
    | mk s1 rest1 =>
      rw [hrun] at hled1 hshape1 hcids1 hlook1
      obtain ⟨c1, cnt1, err⟩ := rest1
      cases err with
      | some e1 => exact ⟨hled1, hshape1, hcids1⟩
      | none =>
        have hOR1 : ORNodup s1 := shapeOR_ORNodup hshape1 hOR
        have hke' : (keysOf rest).Nodup := by
          rw [keysOf, List.map_cons] at hke
          exact (List.nodup_cons.mp hke).2
        have hhnot : hid ∉ keysOf rest := by
          rw [keysOf, List.map_cons] at hke
          exact (List.nodup_cons.mp hke).1
        have hall1 : ∀ p ∈ rest, lookupA s1.occupied_rooms p.1 = some p.2 := by
          intro p hp
          have hpne : p.1 ≠ hid := by
            intro hcon
            exact hhnot (hcon ▸ List.mem_map.mpr ⟨p, hp, rfl⟩)
          rw [hlook1 p.1 hpne]
          exact hall p (List.mem_cons_of_mem _ hp)
        obtain ⟨ihl, ihs, ihc⟩ := ih s1 c1 cnt1 hOR1 hke' hall1
        exact ⟨fun h2 r2 => (ihl h2 r2).trans (hled1 h2 r2),
          ihs.trans hshape1, ihc.trans hcids1⟩

/-- The sweep step of `process_day` preserves the bundled room-ledger
well-formedness, and only thins the flat customer-id list. -/
theorem sweep_occ (stateData : List (String × StateTaxes)) (job_start : ℤ)
    (O : DayOracle) (s : SimState) (c cnt : ℕ) (h : OccWF s) :
    OccWF (sweepHotels stateData job_start O s.occupied_rooms s c cnt).1 ∧
    (cidsOfOR (sweepHotels stateData job_start O s.occupied_rooms s c
      cnt).1.occupied_rooms).Sublist (cidsOfOR s.occupied_rooms) := by
  obtain ⟨hK, hOR, hHN, hI⟩ := h
  have hall : ∀ p ∈ s.occupied_rooms,
      lookupA s.occupied_rooms p.1 = some p.2 := by
    intro p hp
    have : ((p.1, p.2) : ℕ × List (String × List Booking))
        ∈ s.occupied_rooms := by
      cases p
      exact hp
    exact mem_lookupA_of_nodup _ _ _ hOR.1 this
  obtain ⟨hled, hshape, hcids⟩ := sweepHotels_occ stateData job_start O
    s.occupied_rooms s c cnt hOR hOR.1 hall
  have hcore := (sweepHotels_core stateData job_start O s.occupied_rooms s
    c cnt).1
  have hhid : (sweepHotels stateData job_start O s.occupied_rooms s c
      cnt).1.hotels_by_id = s.hotels_by_id := hcore.2.2.1
  refine ⟨⟨?_, ?_, ?_, ?_⟩, hcids⟩
  · intro hid rt b hb
    exact hK hid rt b ((hled hid rt).mem hb)
  · exact shapeOR_ORNodup hshape hOR
  · unfold HotelRoomsNodup
    rw [hhid]
    exact hHN
  · intro hid hotel hhot rt ri hri
    rw [hhid] at hhot
    calc ((ledger (sweepHotels stateData job_start O s.occupied_rooms s c
        cnt).1 hid rt).length : ℤ)
        ≤ ((ledger s hid rt).length : ℤ) := by
          exact_mod_cast (hled hid rt).length_le
      _ ≤ ri.count := hI hid hotel hhot rt ri hri

/-! ### `select_room_type` only offers room types with spare capacity -/

/-- The decrement loop subtracts, from each type's counter, the number of
occupied rooms carrying that type (and never changes the key set). -/
theorem decCounts_spec :
    ∀ (bs : List Booking) (cs cs' : List (String × ℤ)),
    decCounts bs cs = Except.ok cs' →
    keysOf cs' = keysOf cs ∧
    ∀ k, lookupA cs' k = (lookupA cs k).map
      (fun v => v - ((bs.filter (fun b => decide (b.room_type = k))).length
        : ℤ)) := by
  intro bs
  induction bs with
  | nil =>
    intro cs cs' h
    simp only [decCounts] at h
    cases h
    refine ⟨rfl, fun k => ?_⟩
    cases hk : lookupA cs k <;> simp
  | cons b rest ih =>
    intro cs cs' h
    simp only [decCounts] at h
    cases hb : lookupA cs b.room_type with
    | none => rw [hb] at h; cases h
    | some v =>
      rw [hb] at h
      obtain ⟨hkeys, hlook⟩ := ih _ _ h
      refine ⟨hkeys.trans (updateA_keysOf _ _ _), fun k => ?_⟩
      rw [hlook k]
      by_cases hkk : b.room_type = k
      · subst hkk
        rw [lookupA_updateA_self _ _ _ _ hb, hb]
        have hfc : List.filter (fun b0 =>
              decide (b0.room_type = b.room_type)) (b :: rest)
            = b :: List.filter (fun b0 =>
              decide (b0.room_type = b.room_type)) rest := by
          simp [List.filter_cons]
        rw [hfc]
        simp only [Option.map_some', Option.some.injEq, List.length_cons]
        push_cast
        ring
      · rw [lookupA_updateA_ne _ _ _ _ hkk]
        have : (List.filter (fun b0 => decide (b0.room_type = k)) (b :: rest))
            = List.filter (fun b0 => decide (b0.room_type = k)) rest := by
          simp [List.filter_cons, hkk]
        rw [this]

/-- A ledger contributes at most its length to the count of same-typed
bookings in the flat occupied list that `select_room_type` scans. -/
theorem ledger_length_le_flat (s : SimState) (hid : ℕ) (rt : String)
    (hK : RoomsKeyed s) (m : List (String × List Booking))
    (hm : lookupA s.occupied_rooms hid = some m) :
    (ledger s hid rt).length ≤
      (((m.map (fun p => p.2)).flatten).filter
        (fun b => decide (b.room_type = rt))).length := by
  cases hl : lookupA m rt with
  | none =>
    have : ledger s hid rt = [] := by simp [ledger, hm, hl]
    simp [this]
  | some l =>
    have hled : ledger s hid rt = l := ledger_eq_of_lookup hm hl
    have hmem : l ∈ m.map (fun p => p.2) :=
      List.mem_map.mpr ⟨(rt, l), lookupA_mem _ _ _ hl, rfl⟩
    have hsub : l.Sublist (m.map (fun p => p.2)).flatten :=
      List.sublist_flatten_of_mem hmem
    have hfl : l.filter (fun b => decide (b.room_type = rt)) = l := by
      apply List.filter_eq_self.mpr
      intro b hb
      simp only [decide_eq_true_eq]
      exact hK hid rt b (hled ▸ hb)
    calc (ledger s hid rt).length = l.length := by rw [hled]
      _ = (l.filter (fun b => decide (b.room_type = rt))).length := by
          rw [hfl]
      _ ≤ (((m.map (fun p => p.2)).flatten).filter
          (fun b => decide (b.room_type = rt))).length :=
        (hsub.filter _).length_le

/-- When `select_room_type` offers a room type, that type's ledger is
strictly below the configured count: its subtracted counter is positive. -/
theorem select_room_type_avail (O : DayOracle) (c : ℕ) (s : SimState)
    (hid : ℕ) (rt : String) (hK : RoomsKeyed s) (hHN : HotelRoomsNodup s)
    (hok : select_room_type O c s hid = Except.ok (some rt)) :
    ∀ hotel, lookupA s.hotels_by_id hid = some hotel →
      ∀ ri, lookupA hotel.rooms rt = some ri →
        ((ledger s hid rt).length : ℤ) < ri.count := by
  intro hotel hhot ri hri
  rw [select_room_type, hhot] at hok
  simp only at hok
  cases hdec : decCounts
      (match lookupA s.occupied_rooms hid with
        | some m => (m.map (fun p => p.2)).flatten
        | none => [])
      (hotel.rooms.map (fun p => (p.1, p.2.count))) with
  | error e => rw [hdec] at hok; cases hok
  | ok counts1 =>
    rw [hdec] at hok
    simp only at hok
    by_cases hsum : (counts1.map (fun p => p.2)).sum ≤ 0
    · rw [if_pos hsum] at hok
      cases hok
    · rw [if_neg hsum] at hok
      cases havail : counts1.filter (fun p => decide (0 < p.2)) with
      | nil => rw [havail] at hok; cases hok
      | cons a arest =>
        rw [havail] at hok
        simp only [Except.ok.injEq, Option.some.injEq] at hok
        have hidx : O.onat c % (a :: arest).length < (a :: arest).length :=
          Nat.mod_lt _ (by simp)
        have hget : (a :: arest).getD (O.onat c % (a :: arest).length) a
            = (a :: arest)[O.onat c % (a :: arest).length] :=
          List.getD_eq_getElem _ _ hidx
        have hmem : (a :: arest).getD (O.onat c % (a :: arest).length) a
            ∈ a :: arest := by
          rw [hget]
          exact (a :: arest).getElem_mem hidx
        set p := (a :: arest).getD (O.onat c % (a :: arest).length) a with hp
        have hpfilter : p ∈ counts1.filter (fun q => decide (0 < q.2)) := by
          rw [havail]
          exact hmem
        have hpmem : p ∈ counts1 := (List.mem_filter.mp hpfilter).1
        have hppos : (0 : ℤ) < p.2 := by
          have := (List.mem_filter.mp hpfilter).2
          simpa using this
        obtain ⟨hkeys, hlook⟩ := decCounts_spec _ _ _ hdec
        have hnd0 : (keysOf (hotel.rooms.map
            (fun q => (q.1, q.2.count)))).Nodup := by
          have : keysOf (hotel.rooms.map (fun q => (q.1, q.2.count)))
              = keysOf hotel.rooms := by
            simp [keysOf]
          rw [this]
          exact hHN hid hotel hhot
        have hnd1 : (keysOf counts1).Nodup := by
          rw [hkeys]
          exact hnd0
        have hlookp : lookupA counts1 p.1 = some p.2 := by
          have hpp : ((p.1, p.2) : String × ℤ) ∈ counts1 := by
            rw [Prod.mk.eta]
            exact hpmem
          exact mem_lookupA_of_nodup _ _ _ hnd1 hpp
        have hrt : p.1 = rt := hok
        rw [hrt] at hlookp
        rw [hlook rt] at hlookp
        have hlook0 : lookupA (hotel.rooms.map (fun q => (q.1, q.2.count)))
            rt = some ri.count := by
          rw [lookupA_map_snd, hri]
          rfl
        rw [hlook0] at hlookp
        simp only [Option.map_some', Option.some.injEq] at hlookp
        set flat : List Booking := (match lookupA s.occupied_rooms hid with
          | some m => (m.map (fun q => q.2)).flatten
          | none => []) with hflat
        have hcnt : (ledger s hid rt).length ≤
            (flat.filter (fun b => decide (b.room_type = rt))).length := by
          cases hmor : lookupA s.occupied_rooms hid with
          | none =>
            have : ledger s hid rt = [] := by simp [ledger, hmor]
            simp only [this, List.length_nil]
            exact Nat.zero_le _
          | some m =>
            have : flat = (m.map (fun q => q.2)).flatten := by
              rw [hflat, hmor]
            rw [this]
            exact ledger_length_le_flat s hid rt hK m hmor
        have hv : p.2 = ri.count -
            ((flat.filter (fun b => decide (b.room_type = rt))).length : ℤ)
          := hlookp.symm
        rw [hv] at hppos
        have : ((ledger s hid rt).length : ℤ) ≤
            ((flat.filter (fun b => decide (b.room_type = rt))).length : ℤ)
          := by exact_mod_cast hcnt
        omega

/-! ### `checkin` preserves the occupancy invariant and inserts one id -/

/-- `checkin` preserves the room-ledger well-formedness, provided the target
room type has spare capacity (as guaranteed by `select_room_type`). -/
theorem checkin_occWF (arch : List (String × ArchInfo)) (s : SimState)
    (cid hid : ℕ) (rt : String) (stay : ℤ) (h : OccWF s)
    (havail : ∀ hotel, lookupA s.hotels_by_id hid = some hotel →
       ∀ ri, lookupA hotel.rooms rt = some ri →
         ((ledger s hid rt).length : ℤ) < ri.count) :
    OccWF (checkin arch s cid hid rt stay).1 := by
  cases hcd : s.current_day_num with
  | none =>
    simp only [checkin, hcd]
    exact occWF_congr rfl rfl h
  | some day_num =>
    cases hm : lookupA s.occupied_rooms hid with
    | none =>
      simp only [checkin, hcd, hm]
      exact occWF_congr rfl rfl h
    | some rtmap =>
      cases hl : lookupA rtmap rt with
      | none =>
        simp only [checkin, hcd, hm, hl]
        exact occWF_congr rfl rfl h
      | some l0 =>
        have hOcc2 : OccWF { s with occupied_rooms := updateA s.occupied_rooms hid (fun m => updateA m rt (fun l => l ++ [(⟨cid, day_num, stay, rt⟩ : Booking)])) } := by
          obtain ⟨hK, hOR, hHN, hI⟩ := h
          refine ⟨?_, ?_, ?_, ?_⟩
          · intro h2 r2 b hb
            by_cases hcase : h2 = hid ∧ r2 = rt
            · obtain ⟨rfl, rfl⟩ := hcase
              rw [ledger_update_self s h2 r2 rtmap l0 _ hm hl] at hb
              rcases List.mem_append.mp hb with hb | hb
              · exact hK h2 r2 b (by rw [ledger_eq_of_lookup hm hl]; exact hb)
              · simp at hb
                rw [hb]
            · rw [ledger_update_other s hid rt _ h2 r2 hcase] at hb
              exact hK h2 r2 b hb
          · exact shapeOR_ORNodup
              (shapeOR_updateA _ _ _ (fun m0 => updateA_keysOf m0 rt _)) hOR
          · exact fun h2 hotel hhot => hHN h2 hotel hhot
          · intro h2 hotel hhot r2 ri hri
            by_cases hcase : h2 = hid ∧ r2 = rt
            · obtain ⟨rfl, rfl⟩ := hcase
              rw [ledger_update_self s h2 r2 rtmap l0 _ hm hl]
              have hlt := havail hotel hhot ri hri
              rw [ledger_eq_of_lookup hm hl] at hlt
              simp only [List.length_append, List.length_cons,
                List.length_nil]
              push_cast
              omega
            · rw [ledger_update_other s hid rt _ h2 r2 hcase]
              exact hI h2 hotel hhot r2 ri hri
        cases hcu : lookupA s.customers_by_id cid with
        | none =>
          simp only [checkin, hcd, hm, hl, hcu]
          exact occWF_congr rfl rfl hOcc2
        | some customer_data =>
          cases harch : lookupA arch customer_data.type with
          | none =>
            simp only [checkin, hcd, hm, hl, hcu, harch]
            exact occWF_congr rfl rfl hOcc2
          | some ainfo =>
            cases hocc : lookupA s.occupied_customers customer_data.type with
            | none =>
              simp only [checkin, hcd, hm, hl, hcu, harch, hocc]
              exact occWF_congr rfl rfl hOcc2
            | some w =>
              simp only [checkin, hcd, hm, hl, hcu, harch, hocc]
              exact occWF_congr rfl rfl hOcc2

/-- On every path, `checkin` keeps the ledger key structure, and either
leaves the flat customer-id list unchanged (an error before the booking is
stored) or inserts exactly the new customer's id, up to permutation. -/
theorem checkin_cids (arch : List (String × ArchInfo)) (s : SimState)
    (cid hid : ℕ) (rt : String) (stay : ℤ) (hOR : ORNodup s) :
    shapeOR (checkin arch s cid hid rt stay).1.occupied_rooms
      = shapeOR s.occupied_rooms ∧
    (cidsOfOR (checkin arch s cid hid rt stay).1.occupied_rooms
        = cidsOfOR s.occupied_rooms ∨
      List.Perm (cidsOfOR (checkin arch s cid hid rt stay).1.occupied_rooms)
        (cid :: cidsOfOR s.occupied_rooms)) := by
  cases hcd : s.current_day_num with
  | none =>
    simp [checkin, hcd]
  | some day_num =>
    cases hm : lookupA s.occupied_rooms hid with
    | none =>
      simp [checkin, hcd, hm]
    | some rtmap =>
      cases hl : lookupA rtmap rt with
      | none =>
        simp [checkin, hcd, hm, hl]
      | some l0 =>
        have hndm : (keysOf rtmap).Nodup :=
          hOR.2 (hid, rtmap) (lookupA_mem _ _ _ hm)
        have hshape : shapeOR (updateA s.occupied_rooms hid (fun m =>
            updateA m rt (fun l => l ++ [(⟨cid, day_num, stay, rt⟩ :
              Booking)]))) = shapeOR s.occupied_rooms :=
          shapeOR_updateA _ _ _ (fun m0 => updateA_keysOf m0 rt _)
        have hperm := cids_update_append s.occupied_rooms hid rt rtmap l0
          (⟨cid, day_num, stay, rt⟩ : Booking) hOR.1 hndm hm hl
        cases hcu : lookupA s.customers_by_id cid with
        | none =>
          simp only [checkin, hcd, hm, hl, hcu]
          exact ⟨hshape, Or.inr hperm⟩
        | some customer_data =>
          cases harch : lookupA arch customer_data.type with
          | none =>
            simp only [checkin, hcd, hm, hl, hcu, harch]
            exact ⟨hshape, Or.inr hperm⟩
          | some ainfo =>
            cases hocc : lookupA s.occupied_customers customer_data.type with
            | none =>
              simp only [checkin, hcd, hm, hl, hcu, harch, hocc]
              exact ⟨hshape, Or.inr hperm⟩
            | some w =>
              simp only [checkin, hcd, hm, hl, hcu, harch, hocc]
              exact ⟨hshape, Or.inr hperm⟩

/-- The inner check-in loop preserves the room-ledger well-formedness: every
booking it stores passed the `select_room_type` capacity check. -/
theorem checkinLoop_occWF (arch : List (String × ArchInfo)) (O : DayOracle)
    (hid : ℕ) :
    ∀ (n : ℕ) (s : SimState) (pool : List ℕ) (c cnt : ℕ) r,
    checkinLoop arch O hid n s pool c cnt = r → OccWF s → OccWF r.1 := by
  intro n
  induction n with
  | zero =>
    intro s pool c cnt r hr h
    simp only [checkinLoop] at hr
    cases hr
    exact h
  | succ n ih =>
    intro s pool c cnt r hr h
    simp only [checkinLoop] at hr
    cases hl : pool.getLast? with
    | none =>
      rw [hl] at hr
      exact ih s pool c cnt r hr h
    | some this_cid =>
      rw [hl] at hr
      simp only at hr
      cases hc : lookupA s.customers_by_id this_cid with
      | none =>
        rw [hc] at hr
        cases hr
        exact h
      | some customer_data =>
        rw [hc] at hr
        simp only at hr
        cases ha : lookupA arch customer_data.type with
        | none =>
          rw [ha] at hr
          cases hr
          exact h
        | some a0 =>
          rw [ha] at hr
          simp only at hr
          cases hsrt : select_room_type O (c + 1) s hid with
          | error e =>
            rw [hsrt] at hr
            cases hr
            exact h
          | ok orb =>
            rw [hsrt] at hr
            cases orb with
            | none => exact ih s pool.dropLast (c + 2) cnt r hr h
            | some rt =>
              simp only at hr
              have havail := select_room_type_avail O (c + 1) s hid rt h.1
                h.2.2.1 hsrt
              have hpres := checkin_occWF arch s this_cid hid rt
                (O.onat c : ℤ) h havail
              cases hrun : checkin arch s this_cid hid rt (O.onat c : ℤ) with
              | mk s' err =>
                rw [hrun] at hr hpres
                cases err with
                | some e =>
                  cases hr
                  exact hpres
                | none =>
                  exact ih s' pool.dropLast (c + 2) (cnt + 1) r hr hpres

/-- The per-hotel check-in pass preserves the room-ledger
well-formedness. -/
theorem checkinHotels_occWF (arch : List (String × ArchInfo))
    (O : DayOracle) :
    ∀ (entries : List (ℕ × ℤ)) (s : SimState) (pool : List ℕ) (c cnt : ℕ) r,
    checkinHotels arch O entries s pool c cnt = r → OccWF s → OccWF r.1 := by
  intro entries
  induction entries with
  | nil =>
    intro s pool c cnt r hr h
    cases hr
    exact h
  | cons e rest ih =>
    intro s pool c cnt r hr h
    obtain ⟨hid, desired⟩ := e
    unfold checkinHotels at hr
    by_cases hd : desired ≤ 0
    · rw [if_pos hd] at hr
      exact ih s pool c cnt r hr h
    · rw [if_neg hd] at hr
      cases hor : lookupA s.occupied_rooms hid with
      | none =>
        rw [hor] at hr
        cases hr
        exact h
      | some rtmap =>
        rw [hor] at hr
        simp only at hr
        by_cases hn : 0 < desired - (rtmap.map (fun p => (p.2.length : ℤ))).sum
        · rw [if_pos hn] at hr
          cases hrun : checkinLoop arch O hid
              (desired - (rtmap.map (fun p => (p.2.length : ℤ))).sum).toNat s
              (O.osel c pool) (c + 1) cnt with
          | mk s1 rest1 =>
            rw [hrun] at hr
            have hcl := checkinLoop_occWF arch O hid
              (desired - (rtmap.map (fun p => (p.2.length : ℤ))).sum).toNat s
              (O.osel c pool) (c + 1) cnt _ hrun h
            obtain ⟨pool2, c1, cnt1, err⟩ := rest1
            cases err with
            | some e1 =>
              cases hr
              exact hcl
            | none => exact ih s1 pool2 c1 cnt1 r hr hcl
        · rw [if_neg hn] at hr
          exact ih s pool c cnt r hr h

/-- The body of `process_day` preserves the room-ledger well-formedness on
every outcome. -/
theorem process_day_body_occWF (arch : List (String × ArchInfo))
    (stateData : List (String × StateTaxes)) (job_start : ℤ) (O : DayOracle)
    (fuel : ℕ) (dn : ℤ) (s1 : SimState) (r : SimState × PDStatus)
    (hr : process_day_body arch stateData job_start O fuel dn s1 = r)
    (h : OccWF s1) : OccWF r.1 := by
  unfold process_day_body at hr
  have hsw := sweep_occ stateData job_start O s1 0 0 h
  split at hr
  next s2 x y e heq =>
    rw [heq] at hsw
    cases hr
    exact hsw.1
  next s2 c2 checkout_count heq =>
    rw [heq] at hsw
    have h3 : OccWF { s2 with occupied_customers :=
        (expireCooldowns s2.current_day s2.occupied_customers).1 } :=
      occWF_congr rfl rfl hsw.1
    simp only at hr
    split at hr
    next heq2 =>
      cases hr
      exact h3
    next cc c4 heq2 =>
      split at hr
      · cases hr
        exact h3
      · split at hr
        next xx yy e heq3 =>
          cases hr
          exact h3
        next pools c5 heq3 =>
          split at hr
          next s4 p4 c6 cnt6 e heq4 =>
            have h4 := checkinHotels_occWF arch O _ _ _ _ _ _ heq4 h3
            cases hr
            exact h4
          next s4 p4 c6 checkin_count heq4 =>
            have h4 := checkinHotels_occWF arch O _ _ _ _ _ _ heq4 h3
            cases hr
            exact occWF_congr rfl rfl h4

/-- C6: within every hotel's per-room-type ledger, the number of stored
bookings never exceeds the room type's configured count — `process_day`
(and hence every simulated day) preserves the occupancy invariant, together
with the key-consistency and key-uniqueness facts it rests on. -/
theorem C6_occupancy_invariant (arch : List (String × ArchInfo))
    (stateData : List (String × StateTaxes)) (job_start : ℤ) (O : DayOracle)
    (fuel : ℕ) (s : SimState) (h : OccWF s) :
    OccWF (process_day arch stateData job_start O fuel s).1 := by
  by_cases hg : (s.last_phase.getD (-1)) < 3
  · simp only [process_day, if_pos hg]
    exact h
  · simp only [process_day, if_neg hg]
    exact process_day_body_occWF arch stateData job_start O fuel
      (match s.current_day_num with | none => 1 | some d => d + 1)
      { s with
        current_day_num := some (match s.current_day_num with
          | none => 1
          | some d => d + 1),
        current_day := s.current_day + 1 } _ rfl (occWF_congr rfl rfl h)

/-- C6 at a concrete input: the empty post-phase-3 state satisfies the
invariant, and so does the state a day-simulation call leaves behind. -/
theorem C6_occupancy_invariant_witness :
    OccWF (process_day [] [] 0 zeroDemandOracle 1 zeroDemandState).1 :=
  C6_occupancy_invariant [] [] 0 zeroDemandOracle 1 zeroDemandState
    ⟨fun hid rt b hb => by simp [ledger, lookupA, zeroDemandState] at hb,
     ⟨by simp [keysOf, zeroDemandState],
      fun p hp => by simp [zeroDemandState] at hp⟩,
     fun hid hotel hhot => by simp [lookupA, zeroDemandState] at hhot,
     fun hid hotel hhot => by simp [lookupA, zeroDemandState] at hhot⟩

/-! ### The check-in candidate pools (claim C7) -/

/-- Well-formedness of the archetype cache built in phase 2: each
archetype's customer-id list has no duplicates, and no customer id appears
under two different archetype keys. -/
def ArchPoolsWF (s : SimState) : Prop :=
  (∀ p ∈ s.customers_by_archetype, p.2.Nodup) ∧
  (∀ p ∈ s.customers_by_archetype, ∀ q ∈ s.customers_by_archetype,
    p.1 ≠ q.1 → ∀ x ∈ p.2, x ∉ q.2)

theorem archPoolsWF_congr {a b : SimState}
    (h : a.customers_by_archetype = b.customers_by_archetype)
    (hb : ArchPoolsWF b) : ArchPoolsWF a := by
  unfold ArchPoolsWF
  rw [h]
  exact hb

theorem gcdAddLoop_keys (desired : ℤ) (O : DayOracle) :
    ∀ (fuel c : ℕ) (ec : List (String × ℚ)) (c' : ℕ)
      (ec' : List (String × ℚ)),
    gcdAddLoop desired O fuel c ec = some (c', ec') →
    keysOf ec' = keysOf ec := by
  intro fuel
  induction fuel with
  | zero =>
    intro c ec c' ec' h
    rw [gcdAddLoop] at h
    by_cases hg : ¬ (ec.map (fun p => p.2)).sum < (desired : ℚ)
    · rw [if_pos hg] at h
      cases h
      rfl
    · rw [if_neg hg] at h
      cases h
  | succ fuel ih =>
    intro c ec c' ec' h
    rw [gcdAddLoop] at h
    by_cases hg : ¬ (ec.map (fun p => p.2)).sum < (desired : ℚ)
    · rw [if_pos hg] at h
      cases h
      rfl
    · rw [if_neg hg] at h
      cases hkv : ec.getD (O.onat c % ec.length) ("", 0) with
      | mk k v =>
        rw [hkv] at h
        simp only at h
        exact (ih (c + 1) (updateA ec k (fun x => x + 1)) c' ec' h).trans
          (updateA_keysOf _ _ _)

theorem gcdSubLoop_keys (desired : ℤ) (O : DayOracle) :
    ∀ (fuel c : ℕ) (ec : List (String × ℚ)) (c' : ℕ)
      (ec' : List (String × ℚ)),
    gcdSubLoop desired O fuel c ec = some (c', ec') →
    keysOf ec' = keysOf ec := by
  intro fuel
  induction fuel with
  | zero =>
    intro c ec c' ec' h
    rw [gcdSubLoop] at h
    by_cases hg : ¬ (ec.map (fun p => p.2)).sum > (desired : ℚ)
    · rw [if_pos hg] at h
      cases h
      rfl
    · rw [if_neg hg] at h
      cases h
  | succ fuel ih =>
    intro c ec c' ec' h
    rw [gcdSubLoop] at h
    by_cases hg : ¬ (ec.map (fun p => p.2)).sum > (desired : ℚ)
    · rw [if_pos hg] at h
      cases h
      rfl
    · rw [if_neg hg] at h
      cases hkv : ec.getD (O.onat c % ec.length) ("", 0) with
      | mk k v =>
        rw [hkv] at h
        simp only at h
        by_cases hv : 0 < v
        · rw [if_pos hv] at h
          exact (ih (c + 1) (updateA ec k (fun x => x - 1)) c' ec' h).trans
            (updateA_keysOf _ _ _)
        · rw [if_neg hv] at h
          exact ih (c + 1) ec c' ec' h

/-- The customer quotas are keyed exactly by the archetype names. -/
theorem get_customer_distribution_keys (arch : List (String × ArchInfo))
    (O : DayOracle) (fuel c : ℕ) (desired : ℤ)
    (counts : List (String × ℤ)) (c2 : ℕ)
    (h : get_customer_distribution arch O fuel c desired
      = some (counts, c2)) :
    keysOf counts = keysOf arch := by
  unfold get_customer_distribution at h
  simp only at h
  cases hadd : gcdAddLoop desired O fuel c
      (arch.map (fun p => (p.1, p.2.percentage * (desired : ℚ)))) with
  | none => rw [hadd] at h; cases h
  | some r1 =>
    rw [hadd] at h
    obtain ⟨c1, ec1⟩ := r1
    simp only at h
    cases hsub : gcdSubLoop desired O fuel c1 ec1 with
    | none => rw [hsub] at h; cases h
    | some r2 =>
      rw [hsub] at h
      obtain ⟨c3, ec2⟩ := r2
      simp only at h
      cases h
      have h1 := gcdSubLoop_keys desired O fuel c1 ec1 _ ec2 hsub
      have h2 := gcdAddLoop_keys desired O fuel c
        (arch.map (fun p => (p.1, p.2.percentage * (desired : ℚ)))) c1 ec1
        hadd
      have h3 : keysOf (ec2.map (fun p => (p.1, pyRound p.2)))
          = keysOf ec2 := by simp [keysOf]
      have h4 : keysOf (arch.map (fun p =>
          (p.1, p.2.percentage * (desired : ℚ)))) = keysOf arch := by
        simp [keysOf]
      rw [h3, h1, h2, h4]

/-- Every customer id placed in a candidate pool survived the
`cid not in all_checked_in_ids` filter: no pooled customer holds an active
booking. -/
theorem buildPools_excludes (O : DayOracle) (s : SimState)
    (checkedIn : List ℕ) (hperm : PermOracle O) :
    ∀ (counts : List (String × ℤ)) (c : ℕ),
    ∀ q ∈ (buildPools O s checkedIn counts c).1, ∀ x ∈ q.2,
      x ∉ checkedIn := by
  intro counts
  induction counts with
  | nil =>
    intro c q hq x hx
    simp [buildPools] at hq
  | cons e rest ih =>
    intro c q hq x hx
    obtain ⟨ct, quota⟩ := e
    simp only [buildPools] at hq
    cases hgrp : lookupA s.customers_by_archetype ct with
    | none =>
      rw [hgrp] at hq
      simp at hq
    | some grp =>
      rw [hgrp] at hq
      simp only at hq
      split at hq
      · split at hq
        · cases hrec : buildPools O s checkedIn rest (c + 1) with
          | mk pools rest2 =>
            rw [hrec] at hq
            obtain ⟨c2, err⟩ := rest2
            simp only at hq
            rcases List.mem_cons.mp hq with hq | hq
            · subst hq
              simp only at hx
              have hx2 := List.mem_of_mem_take hx
              have hx3 := (hperm _ _).mem_iff.mp hx2
              have hx4 := (List.mem_filter.mp (List.mem_filter.mp hx3).1).2
              simpa using hx4
            · exact ih (c + 1) q (by rw [hrec]; exact hq) x hx
        · simp at hq
      · split at hq
        · cases hrec : buildPools O s checkedIn rest (c + 1) with
          | mk pools rest2 =>
            rw [hrec] at hq
            obtain ⟨c2, err⟩ := rest2
            simp only at hq
            rcases List.mem_cons.mp hq with hq | hq
            · subst hq
              simp only at hx
              have hx2 := List.mem_of_mem_take hx
              have hx3 := (hperm _ _).mem_iff.mp hx2
              have hx4 := (List.mem_filter.mp (List.mem_filter.mp hx3).1).2
              simpa using hx4
            · exact ih (c + 1) q (by rw [hrec]; exact hq) x hx
        · simp at hq

/-- With distinct quota keys, distinct archetype lists and per-list
uniqueness, the candidate pools are disjoint and duplicate-free: their
flattening (the day's `all_customer_ids`) has no repeated customer id. -/
theorem buildPools_spec (O : DayOracle) (s : SimState) (checkedIn : List ℕ)
    (hperm : PermOracle O) (hWF : ArchPoolsWF s) :
    ∀ (counts : List (String × ℤ)) (c : ℕ), (keysOf counts).Nodup →
    (∀ q ∈ (buildPools O s checkedIn counts c).1,
      q.1 ∈ keysOf counts ∧
      ∀ x ∈ q.2, ∃ p ∈ s.customers_by_archetype, p.1 = q.1 ∧ x ∈ p.2) ∧
    (((buildPools O s checkedIn counts c).1.map
      (fun q => q.2)).flatten).Nodup := by
  intro counts
  induction counts with
  | nil =>
    intro c _
    constructor
    · intro q hq
      simp [buildPools] at hq
    · simp [buildPools]
  | cons e rest ih =>
    intro c hnd
    obtain ⟨ct, quota⟩ := e
    have hndr : (keysOf rest).Nodup := by
      rw [keysOf, List.map_cons] at hnd
      exact (List.nodup_cons.mp hnd).2
    have hctnot : ct ∉ keysOf rest := by
      rw [keysOf, List.map_cons] at hnd
      exact (List.nodup_cons.mp hnd).1
    simp only [buildPools]
    cases hgrp : lookupA s.customers_by_archetype ct with
    | none =>
      constructor
      · intro q hq
        simp at hq
      · simp
    | some grp =>
      simp only
      have hmemgrp : ((ct, grp) : String × List ℕ)
          ∈ s.customers_by_archetype := lookupA_mem _ _ _ hgrp
      have hgrpnd : grp.Nodup := hWF.1 (ct, grp) hmemgrp
      obtain ⟨ih1, ih2⟩ := ih (c + 1) hndr
      split
      · split
        · cases hrec : buildPools O s checkedIn rest (c + 1) with
          | mk pools rest2 =>
            rw [hrec] at ih1 ih2
            obtain ⟨c2, err⟩ := rest2
            simp only
            have hsubgrp : ∀ y x, x ∈ (O.osel c ((grp.filter (fun cid =>
                decide (cid ∉ checkedIn))).filter (fun cid => decide (cid ∉
                  (match lookupA s.occupied_customers ct with
                    | some l => l.map (fun (cd : Cooldown) => cd.customer_id)
                    | none => []))))).take y → x ∈ grp := by
              intro y x hx
              have hx2 := List.mem_of_mem_take hx
              have hx3 := (hperm _ _).mem_iff.mp hx2
              exact (List.mem_filter.mp (List.mem_filter.mp hx3).1).1
            have hidsnd : ∀ y, ((O.osel c ((grp.filter (fun cid =>
                decide (cid ∉ checkedIn))).filter (fun cid => decide (cid ∉
                  (match lookupA s.occupied_customers ct with
                    | some l => l.map (fun (cd : Cooldown) => cd.customer_id)
                    | none => []))))).take y).Nodup := by
              intro y
              refine (List.take_sublist _ _).nodup
                ((hperm _ _).nodup_iff.mpr ?_)
              exact (List.filter_sublist _).nodup
                ((List.filter_sublist _).nodup hgrpnd)
            constructor
            · intro q hq
              rcases List.mem_cons.mp hq with hq | hq
              · subst hq
                refine ⟨by simp [keysOf], ?_⟩
                intro x hx
                exact ⟨(ct, grp), hmemgrp, rfl, hsubgrp _ x hx⟩
              · obtain ⟨hk, hsrc⟩ := ih1 q hq
                refine ⟨?_, hsrc⟩
                rw [keysOf, List.map_cons]
                exact List.mem_cons_of_mem _ hk
            · simp only [List.map_cons, List.flatten_cons]
              refine List.nodup_append.mpr ⟨hidsnd _, ih2, ?_⟩
              intro x hx1 hx2
              obtain ⟨l, hl, hxl⟩ := List.mem_flatten.mp hx2
              obtain ⟨q2, hq2, rfl⟩ := List.mem_map.mp hl
              obtain ⟨hk2, hsrc2⟩ := ih1 q2 hq2
              obtain ⟨p2, hp2mem, hp2k, hxp2⟩ := hsrc2 x hxl
              have hne : ((ct, grp) : String × List ℕ).1 ≠ p2.1 := by
                simp only
                intro hcon
                rw [hp2k] at hcon
                exact hctnot (by rw [hcon]; exact hk2)
              exact hWF.2 (ct, grp) hmemgrp p2 hp2mem hne x
                (hsubgrp _ x hx1) hxp2
        · constructor
          · intro q hq
            simp at hq
          · simp
      · split
        · cases hrec : buildPools O s checkedIn rest (c + 1) with
          | mk pools rest2 =>
            rw [hrec] at ih1 ih2
            obtain ⟨c2, err⟩ := rest2
            simp only
            have hsubgrp : ∀ y x, x ∈ (O.osel c ((grp.filter (fun cid =>
                decide (cid ∉ checkedIn))).filter (fun cid => decide (cid ∉
                  (match lookupA s.occupied_customers ct with
                    | some l => l.map (fun (cd : Cooldown) => cd.customer_id)
                    | none => []))))).take y → x ∈ grp := by
              intro y x hx
              have hx2 := List.mem_of_mem_take hx
              have hx3 := (hperm _ _).mem_iff.mp hx2
              exact (List.mem_filter.mp (List.mem_filter.mp hx3).1).1
            have hidsnd : ∀ y, ((O.osel c ((grp.filter (fun cid =>
                decide (cid ∉ checkedIn))).filter (fun cid => decide (cid ∉
                  (match lookupA s.occupied_customers ct with
                    | some l => l.map (fun (cd : Cooldown) => cd.customer_id)
                    | none => []))))).take y).Nodup := by
              intro y
              refine (List.take_sublist _ _).nodup
                ((hperm _ _).nodup_iff.mpr ?_)
              exact (List.filter_sublist _).nodup
                ((List.filter_sublist _).nodup hgrpnd)
            constructor
            · intro q hq
              rcases List.mem_cons.mp hq with hq | hq
              · subst hq
                refine ⟨by simp [keysOf], ?_⟩
                intro x hx
                exact ⟨(ct, grp), hmemgrp, rfl, hsubgrp _ x hx⟩
              · obtain ⟨hk, hsrc⟩ := ih1 q hq
                refine ⟨?_, hsrc⟩
                rw [keysOf, List.map_cons]
                exact List.mem_cons_of_mem _ hk
            · simp only [List.map_cons, List.flatten_cons]
              refine List.nodup_append.mpr ⟨hidsnd _, ih2, ?_⟩
              intro x hx1 hx2
              obtain ⟨l, hl, hxl⟩ := List.mem_flatten.mp hx2
              obtain ⟨q2, hq2, rfl⟩ := List.mem_map.mp hl
              obtain ⟨hk2, hsrc2⟩ := ih1 q2 hq2
              obtain ⟨p2, hp2mem, hp2k, hxp2⟩ := hsrc2 x hxl
              have hne : ((ct, grp) : String × List ℕ).1 ≠ p2.1 := by
                simp only
                intro hcon
                rw [hp2k] at hcon
                exact hctnot (by rw [hcon]; exact hk2)
              exact hWF.2 (ct, grp) hmemgrp p2 hp2mem hne x
                (hsubgrp _ x hx1) hxp2
        · constructor
          · intro q hq
            simp at hq
          · simp

/-- Facts about `all_customer_ids.pop()`: the popped id was in the pool, and
the remaining pool is duplicate-free and excludes it. -/
theorem pool_pop_facts (pool : List ℕ) (a : ℕ) (hl : pool.getLast? = some a)
    (hnd : pool.Nodup) :
    a ∈ pool ∧ pool.dropLast.Nodup ∧ a ∉ pool.dropLast ∧
    ∀ x ∈ pool.dropLast, x ∈ pool := by
  have hne : pool ≠ [] := by
    intro hcon
    subst hcon
    simp at hl
  have hga : pool.getLast hne = a := by
    rw [List.getLast?_eq_getLast pool hne] at hl
    exact Option.some.inj hl
  have hdecomp : pool.dropLast ++ [a] = pool := by
    rw [← hga]
    exact List.dropLast_append_getLast hne
  constructor
  · rw [← hdecomp]
    exact List.mem_append.mpr (Or.inr (by simp))
  have hnd2 : (pool.dropLast ++ [a]).Nodup := by
    rw [hdecomp]
    exact hnd
  rw [List.nodup_append] at hnd2
  refine ⟨hnd2.1, ?_, ?_⟩
  · intro hcon
    exact hnd2.2.2 hcon (by simp)
  · intro x hx
    rw [← hdecomp]
    exact List.mem_append.mpr (Or.inl hx)

/-- The inner check-in loop keeps the flat list of booked customer ids
duplicate-free: it books only ids popped from a duplicate-free pool that is
disjoint from the already-booked ids, and it books each popped id at most
once. -/
theorem checkinLoop_cids (arch : List (String × ArchInfo)) (O : DayOracle)
    (hid : ℕ) :
    ∀ (n : ℕ) (s : SimState) (pool : List ℕ) (c cnt : ℕ) r,
    checkinLoop arch O hid n s pool c cnt = r →
    ORNodup s → (cidsOfOR s.occupied_rooms).Nodup → pool.Nodup →
    (∀ x ∈ pool, x ∉ cidsOfOR s.occupied_rooms) →
    ORNodup r.1 ∧ (cidsOfOR r.1.occupied_rooms).Nodup ∧ r.2.1.Nodup ∧
    (∀ x ∈ r.2.1, x ∉ cidsOfOR r.1.occupied_rooms) := by
  intro n
  induction n with
  | zero =>
    intro s pool c cnt r hr hOR hU hp hdisj
    simp only [checkinLoop] at hr
    cases hr
    exact ⟨hOR, hU, hp, hdisj⟩
  | succ n ih =>
    intro s pool c cnt r hr hOR hU hp hdisj
    simp only [checkinLoop] at hr
    cases hl : pool.getLast? with
    | none =>
      rw [hl] at hr
      exact ih s pool c cnt r hr hOR hU hp hdisj
    | some this_cid =>
      rw [hl] at hr
      simp only at hr
      obtain ⟨hmem, hpd, hnotd, hsubp⟩ := pool_pop_facts pool this_cid hl hp
      have hpdisj : ∀ x ∈ pool.dropLast, x ∉ cidsOfOR s.occupied_rooms :=
        fun x hx => hdisj x (hsubp x hx)
      cases hc : lookupA s.customers_by_id this_cid with
      | none =>
        rw [hc] at hr
        cases hr
        exact ⟨hOR, hU, hpd, hpdisj⟩
      | some customer_data =>
        rw [hc] at hr
        simp only at hr
        cases ha : lookupA arch customer_data.type with
        | none =>
          rw [ha] at hr
          cases hr
          exact ⟨hOR, hU, hpd, hpdisj⟩
        | some a0 =>
          rw [ha] at hr
          simp only at hr
          cases hsrt : select_room_type O (c + 1) s hid with
          | error e =>
            rw [hsrt] at hr
            cases hr
            exact ⟨hOR, hU, hpd, hpdisj⟩
          | ok orb =>
            rw [hsrt] at hr
            cases orb with
            | none =>
              exact ih s pool.dropLast (c + 2) cnt r hr hOR hU hpd hpdisj
            | some rt =>
              simp only at hr
              obtain ⟨hshape, hcid⟩ := checkin_cids arch s this_cid hid rt
                (O.onat c : ℤ) hOR
              cases hrun : checkin arch s this_cid hid rt (O.onat c : ℤ) with
              | mk s' err =>
                rw [hrun] at hr hshape hcid
                have hOR' : ORNodup s' := shapeOR_ORNodup hshape hOR
                have hU' : (cidsOfOR s'.occupied_rooms).Nodup := by
                  rcases hcid with hcid | hcid
                  · rw [hcid]
                    exact hU
                  · exact hcid.nodup_iff.mpr
                      (List.nodup_cons.mpr ⟨hdisj this_cid hmem, hU⟩)
                have hdisj' : ∀ x ∈ pool.dropLast,
                    x ∉ cidsOfOR s'.occupied_rooms := by
                  intro x hx hxin
                  rcases hcid with hcid | hcid
                  · rw [hcid] at hxin
                    exact hpdisj x hx hxin
                  · rcases List.mem_cons.mp (hcid.mem_iff.mp hxin) with
                      hxe | hxin2
                    · exact hnotd (hxe ▸ hx)
                    · exact hpdisj x hx hxin2
                cases err with
                | some e =>
                  cases hr
                  exact ⟨hOR', hU', hpd, hdisj'⟩
                | none =>
                  exact ih s' pool.dropLast (c + 2) (cnt + 1) r hr hOR' hU'
                    hpd hdisj'

/-- The per-hotel check-in pass keeps the flat list of booked customer ids
duplicate-free (its `r.shuffle` only permutes the shared pool). -/
theorem checkinHotels_cids (arch : List (String × ArchInfo)) (O : DayOracle)
    (hperm : PermOracle O) :
    ∀ (entries : List (ℕ × ℤ)) (s : SimState) (pool : List ℕ) (c cnt : ℕ) r,
    checkinHotels arch O entries s pool c cnt = r →
    ORNodup s → (cidsOfOR s.occupied_rooms).Nodup → pool.Nodup →
    (∀ x ∈ pool, x ∉ cidsOfOR s.occupied_rooms) →
    ORNodup r.1 ∧ (cidsOfOR r.1.occupied_rooms).Nodup := by
  intro entries
  induction entries with
  | nil =>
    intro s pool c cnt r hr hOR hU hp hdisj
    cases hr
    exact ⟨hOR, hU⟩
  | cons e rest ih =>
    intro s pool c cnt r hr hOR hU hp hdisj
    obtain ⟨hid, desired⟩ := e
    unfold checkinHotels at hr
    by_cases hd : desired ≤ 0
    · rw [if_pos hd] at hr
      exact ih s pool c cnt r hr hOR hU hp hdisj
    · rw [if_neg hd] at hr
      cases hor : lookupA s.occupied_rooms hid with
      | none =>
        rw [hor] at hr
        cases hr
        exact ⟨hOR, hU⟩
      | some rtmap =>
        rw [hor] at hr
        simp only at hr
        by_cases hn : 0 < desired - (rtmap.map (fun p => (p.2.length : ℤ))).sum
        · rw [if_pos hn] at hr
          have hp1 : (O.osel c pool).Nodup := (hperm c pool).nodup_iff.mpr hp
          have hdisj1 : ∀ x ∈ O.osel c pool,
              x ∉ cidsOfOR s.occupied_rooms :=
            fun x hx => hdisj x ((hperm c pool).mem_iff.mp hx)
          cases hrun : checkinLoop arch O hid
              (desired - (rtmap.map (fun p => (p.2.length : ℤ))).sum).toNat s
              (O.osel c pool) (c + 1) cnt with
          | mk s1 rest1 =>
            rw [hrun] at hr
            have hcl := checkinLoop_cids arch O hid
              (desired - (rtmap.map (fun p => (p.2.length : ℤ))).sum).toNat s
              (O.osel c pool) (c + 1) cnt _ hrun hOR hU hp1 hdisj1
            obtain ⟨pool2, c1, cnt1, err⟩ := rest1
            cases err with
            | some e1 =>
              cases hr
              exact ⟨hcl.1, hcl.2.1⟩
            | none =>
              exact ih s1 pool2 c1 cnt1 r hr hcl.1 hcl.2.1 hcl.2.2.1
                hcl.2.2.2
        · rw [if_neg hn] at hr
          exact ih s pool c cnt r hr hOR hU hp hdisj

/-- The body of `process_day` keeps the flat list of booked customer ids
duplicate-free: the sweep only removes bookings, and the check-in pass
books each pooled id at most once, with the pools disjoint from the
already-booked ids. -/
theorem process_day_body_cids (arch : List (String × ArchInfo))
    (stateData : List (String × StateTaxes)) (job_start : ℤ) (O : DayOracle)
    (fuel : ℕ) (dn : ℤ) (s1 : SimState) (r : SimState × PDStatus)
    (hr : process_day_body arch stateData job_start O fuel dn s1 = r)
    (hperm : PermOracle O) (harch : (keysOf arch).Nodup)
    (hWF : ArchPoolsWF s1) (hOR : ORNodup s1)
    (hU : (cidsOfOR s1.occupied_rooms).Nodup) :
    (cidsOfOR r.1.occupied_rooms).Nodup := by
  unfold process_day_body at hr
  have hall : ∀ p ∈ s1.occupied_rooms,
      lookupA s1.occupied_rooms p.1 = some p.2 := by
    intro p hp
    have hpp : ((p.1, p.2) : ℕ × List (String × List Booking))
        ∈ s1.occupied_rooms := by
      rw [Prod.mk.eta]
      exact hp
    exact mem_lookupA_of_nodup _ _ _ hOR.1 hpp
  have hsw := sweepHotels_occ stateData job_start O s1.occupied_rooms s1 0 0
    hOR hOR.1 hall
  have hcore := (sweepHotels_core stateData job_start O s1.occupied_rooms s1
    0 0).1
  split at hr
  next s2 x y e heq =>
    rw [heq] at hsw
    cases hr
    exact hsw.2.2.nodup hU
  next s2 c2 checkout_count heq =>
    rw [heq] at hsw hcore
    obtain ⟨hled2, hshape2, hcids2⟩ := hsw
    have hU2 : (cidsOfOR s2.occupied_rooms).Nodup := hcids2.nodup hU
    have hOR2 : ORNodup s2 := shapeOR_ORNodup hshape2 hOR
    have hWF2 : ArchPoolsWF s2 := archPoolsWF_congr hcore.2.2.2.2.1 hWF
    simp only at hr
    split at hr
    next heq2 =>
      cases hr
      exact hU2
    next cc c4 heq2 =>
      split at hr
      · cases hr
        exact hU2
      · split at hr
        next xx yy e heq3 =>
          cases hr
          exact hU2
        next pools c5 heq3 =>
          have hndcc : (keysOf cc).Nodup := by
            rw [get_customer_distribution_keys arch O fuel _ _ cc c4 heq2]
            exact harch
          set s3 : SimState := { s2 with occupied_customers := (expireCooldowns s2.current_day s2.occupied_customers).1 } with hs3
          have hspec := buildPools_spec O s3 (allBookingCids s3) hperm
            (archPoolsWF_congr rfl hWF2) cc c4 hndcc
          have hexcl := buildPools_excludes O s3 (allBookingCids s3) hperm
            cc c4
          rw [heq3] at hspec hexcl
          simp only at hspec hexcl
          have hpoolnd : ((pools.map (fun q => q.2)).flatten).Nodup :=
            hspec.2
          have hpooldisj : ∀ x ∈ (pools.map (fun q => q.2)).flatten,
              x ∉ cidsOfOR s2.occupied_rooms := by
            intro x hx
            obtain ⟨l, hl, hxl⟩ := List.mem_flatten.mp hx
            obtain ⟨q2, hq2, rfl⟩ := List.mem_map.mp hl
            exact hexcl q2 hq2 x hxl
          split at hr
          next s4 p4 c6 cnt6 e heq4 =>
            have hch := checkinHotels_cids arch O hperm _ _ _ _ _ _ heq4
              hOR2 hU2 hpoolnd hpooldisj
            cases hr
            exact hch.2
          next s4 p4 c6 checkin_count heq4 =>
            have hch := checkinHotels_cids arch O hperm _ _ _ _ _ _ heq4
              hOR2 hU2 hpoolnd hpooldisj
            cases hr
            exact hch.2

/-- C7: a customer holding an active booking is never placed in the
check-in candidate pool (every pooled id passed the `all_checked_in_ids`
filter), and — given duplicate-free, pairwise-disjoint archetype caches and
a duplicate-free booking ledger — a day-simulation call keeps the flat list
of booked customer ids duplicate-free, so no customer is checked in twice
that day and every customer holds at most one active booking. -/
theorem C7_no_double_booking (arch : List (String × ArchInfo))
    (stateData : List (String × StateTaxes)) (job_start : ℤ) (O : DayOracle)
    (fuel : ℕ) (s : SimState) (hperm : PermOracle O)
    (harch : (keysOf arch).Nodup) (hWF : ArchPoolsWF s) (hOR : ORNodup s)
    (hU : (allBookingCids s).Nodup) :
    (∀ (s' : SimState) (checkedIn : List ℕ) (counts : List (String × ℤ))
        (c : ℕ), ∀ q ∈ (buildPools O s' checkedIn counts c).1, ∀ x ∈ q.2,
          x ∉ checkedIn) ∧
    (allBookingCids (process_day arch stateData job_start O fuel
      s).1).Nodup := by
  constructor
  · intro s' checkedIn counts c q hq x hx
    exact buildPools_excludes O s' checkedIn hperm counts c q hq x hx
  · rw [allBookingCids_eq]
    by_cases hg : (s.last_phase.getD (-1)) < 3
    · simp only [process_day, if_pos hg]
      exact hU
    · simp only [process_day, if_neg hg]
      exact process_day_body_cids arch stateData job_start O fuel
        (match s.current_day_num with | none => 1 | some d => d + 1)
        { s with
          current_day_num := some (match s.current_day_num with
            | none => 1
            | some d => d + 1),
          current_day := s.current_day + 1 } _ rfl hperm harch
        (archPoolsWF_congr rfl hWF) hOR hU

/-- C7 at a concrete input: the empty post-phase-3 state with the identity
reordering oracle satisfies each hypothesis, pools exclude checked-in ids,
and the booked-id list after the call has no duplicates. -/
theorem C7_no_double_booking_witness :
    (∀ (s' : SimState) (checkedIn : List ℕ) (counts : List (String × ℤ))
        (c : ℕ), ∀ q ∈ (buildPools zeroDemandOracle s' checkedIn counts
          c).1, ∀ x ∈ q.2, x ∉ checkedIn) ∧
    (allBookingCids (process_day [] [] 0 zeroDemandOracle 1
      zeroDemandState).1).Nodup :=
  C7_no_double_booking [] [] 0 zeroDemandOracle 1 zeroDemandState
    (fun c l => List.Perm.refl l)
    (by simp [keysOf])
    ⟨fun p hp => by simp [zeroDemandState] at hp,
     fun p hp => by simp [zeroDemandState] at hp⟩
    ⟨by simp [keysOf, zeroDemandState],
     fun p hp => by simp [zeroDemandState] at hp⟩
    (by simp [allBookingCids, zeroDemandState])

end HotelGen
